import Mathlib

/-!
Verification of the configuration-management core of a git command-line
wrapper (src/lib/git.js).

The JavaScript layer shells out to an external executable. Here the layer's
functions are embedded shallowly over an explicit model of the external
configuration store (a pair of ordered key/value files, one per scope, and a
line-oriented text protocol), together with a trace of every flattened
command invocation that is issued. Each definition mirrors one function of
the source file; the external store itself is modelled from the spec's
description of the boundary (sections 3, 4.2 and 6 of the spec).
-/

/-! ## Process-runner argument values

Arguments may be passed as arbitrarily nested groupings (JavaScript arrays).
-/

/-- Model of a JavaScript argument value handed to the process runner: either
a plain string or an (arbitrarily nested) array of further arguments. -/
inductive Arg where
  | str : String → Arg
  | arr : List Arg → Arg

mutual
/-- Model of lodash flattenDeep on a single value, as used by git.run: a
string stays, an array is flattened at every depth. -/
def flattenDeepA : Arg → List String
  | .str s => [s]
  | .arr l => flattenDeepL l

/-- Model of lodash flattenDeep on an argument tuple. -/
def flattenDeepL : List Arg → List String
  | [] => []
  | a :: r => flattenDeepA a ++ flattenDeepL r
end

/-- Model of lodash flatten (a SINGLE level of flattening), as used by
git.show: only the outermost arrays are spliced, deeper nesting is kept. -/
def flattenOne (l : List Arg) : List Arg :=
  l.flatMap fun a => match a with
    | .arr xs => xs
    | x => [x]

/-! ## Character-list text helpers

JavaScript string operations used by the source (split on a newline,
trimRight, split at the first space) are modelled on the character list
underlying a Lean string, so that they compute and can be reasoned about.
-/

/-- Helper for splitNlL: prepend a character to the first chunk. -/
def consHead (c : Char) : List (List Char) → List (List Char)
  | [] => [[c]]
  | l :: ls => (c :: l) :: ls

/-- Model of JavaScript String.prototype.split("\n") on a character list:
"a\nb" becomes ["a","b"], the empty string becomes [""]. -/
def splitNlL : List Char → List (List Char)
  | [] => [[]]
  | c :: rest =>
    if c = '\n' then [] :: splitNlL rest
    else consHead c (splitNlL rest)

/-- Join character-list lines with a newline separator (the store's
multi-line output, before the final trailing newline is appended). -/
def intercalateNlL : List (List Char) → List Char
  | [] => []
  | [l] => l
  | l :: ls => l ++ '\n' :: intercalateNlL ls

/-- Model of JavaScript String.prototype.trimRight on a character list:
drop every trailing whitespace character. -/
def trimRightL (l : List Char) : List Char :=
  (l.reverse.dropWhile Char.isWhitespace).reverse

/-- Model of JavaScript String.prototype.split("\n"). -/
def jsSplitNl (s : String) : List String :=
  (splitNlL s.data).map fun l => ⟨l⟩

/-- Model of JavaScript String.prototype.trimRight. -/
def jsTrimRight (s : String) : String :=
  ⟨trimRightL s.data⟩

/-- Model of JavaScript String.prototype.substr(n): drop the first n
characters. -/
def jsSubstrFrom (s : String) (n : Nat) : String :=
  ⟨s.data.drop n⟩

/-- Model of the line match against the pattern ^(.*?)( (.*))?$ used by
git.config.get in regexp mode: the line is split at its FIRST space into the
key and the rest of the line; a line with no space yields an absent
(undefined) value. -/
def splitFirstSpace (s : String) : String × Option String :=
  let k := s.data.takeWhile fun c => c != ' '
  if k.length == s.data.length then (s, none)
  else (⟨k⟩, some ⟨s.data.drop (k.length + 1)⟩)

/-- Model of the replacement .replace(/\.[^.]*$/, "") used by
git.config.subsections: remove the last dot and everything after it, when
the string contains a dot; otherwise leave the string unchanged. -/
def stripLastComponent (s : String) : String :=
  match s.data.reverse.dropWhile (fun c => c != '.') with
  | [] => s
  | _ :: rest => ⟨rest.reverse⟩

/-! ## Lodash collection helpers used by the source -/

/-- Helper for lodash uniq-style first-occurrence deduplication. -/
def dedupFirstAux (seen : List String) : List String → List String
  | [] => []
  | x :: xs =>
    if seen.contains x then dedupFirstAux seen xs
    else x :: dedupFirstAux (x :: seen) xs

/-- First-occurrence deduplication of a list of strings. -/
def dedupFirst (xs : List String) : List String := dedupFirstAux [] xs

/-- Model of lodash difference: the members of the first list that are not
members of the second, in order, without deduplicating the first list. -/
def lodashDifference (xs ys : List String) : List String :=
  xs.filter fun x => !(ys.contains x)

/-- Model of lodash intersection: the unique members of the first list that
are also members of the second, ordered by the first list. -/
def lodashIntersection (xs ys : List String) : List String :=
  (dedupFirst xs).filter fun x => ys.contains x

/-! ## The external configuration store

Modelled from the spec: the store keeps an ordered list of key/value entries
per scope file (global and local); reads with no scope flag merge all
applicable files with the most specific (local) last, while writes with no
scope flag target the local file; a key may hold many values, in store
order. The boundary protocol is line-oriented text with a trailing newline
(spec sections 3, 4.2 and 6).
-/

/-- One configuration entry: a key and one of its values. -/
abbrev Entry := String × String

/-- Modelled from the spec: the external store's state, one ordered entry
list per scope file. -/
structure World where
  globalFile : List Entry
  localFile : List Entry
deriving DecidableEq

/-- Result shape of a synchronous subprocess invocation, as returned by the
spawn call in git.run: exit status and captured output streams. -/
structure CommandResult where
  status : Int
  stdout : String
  stderr : String
deriving DecidableEq

/-- The ordered list of values held by a key in an entry list. -/
def valuesFor (f : List Entry) (key : String) : List String :=
  (f.filter fun p => p.1 == key).map fun p => p.2

/-- The option flags this layer ever passes to the store; anything else on
the command line is positional (keys, values, patterns). -/
def cfgFlags : List String :=
  ["--global", "--local", "--add", "--get-all", "--get-regexp",
   "--unset", "--unset-all", "--remove-section", "--rename-section"]

/-- Whether a command-line token is one of the store's option flags. -/
def isCfgFlag (s : String) : Bool := cfgFlags.contains s

/-- The scope file targeted by a write, given the parsed flags: the global
file when --global is present, otherwise the local file (the store's default
write target). -/
def writeFileOf (flags : List String) (w : World) : List Entry :=
  if flags.contains "--global" then w.globalFile else w.localFile

/-- Replace the write-targeted scope file. -/
def setWriteFile (flags : List String) (w : World) (f : List Entry) : World :=
  if flags.contains "--global" then { w with globalFile := f }
  else { w with localFile := f }

/-- The entries visible to a read, given the parsed flags: a single file
when a scope flag is present, otherwise all files merged with the local
(more specific) file last. -/
def readEntriesOf (flags : List String) (w : World) : List Entry :=
  if flags.contains "--global" then w.globalFile
  else if flags.contains "--local" then w.localFile
  else w.globalFile ++ w.localFile

/-- Modelled from the spec: the store's matcher for the anchored exact-match
value patterns this layer issues ("^value$"): the pattern matches a stored
value exactly when it is the caret, the value, and the dollar sign. -/
def anchoredValueMatch (pat value : String) : Bool :=
  match pat.data with
  | '^' :: rest =>
    match rest.reverse with
    | '$' :: revMid => value.data == revMid.reverse
    | _ => false
  | _ => false

/-- Modelled from the spec: the store's matcher for the anchored key-prefix
patterns this layer issues ("^section\\."): the pattern matches every key
that starts with the section name followed by a literal dot. -/
def regexpKeyMatch (pat key : String) : Bool :=
  match pat.data with
  | '^' :: rest =>
    match rest.reverse with
    | '.' :: '\\' :: revSec => (revSec.reverse ++ ['.']).isPrefixOf key.data
    | _ => false
  | _ => false

/-- Newline-separated output block for a list of lines, with the trailing
newline the store always emits. -/
def mkLinesOut (vs : List String) : String :=
  ⟨intercalateNlL (vs.map String.data) ++ ['\n']⟩

/-- One line of regexp-mode output: "key value", or just the key when the
value is empty. -/
def entryLine (p : Entry) : String :=
  if p.2 == "" then p.1 else ⟨p.1.data ++ ' ' :: p.2.data⟩

/-- Modelled from the spec: interpretation of one "config ..." invocation of
the external store. Leading recognized option flags are parsed; remaining
tokens are positional. Reads exit 1 when nothing is found, unset operations
exit 5 when nothing matches, malformed invocations exit 129, and values are
accepted as opaque strings. -/
def runConfigCmd (rest : List String) (w : World) : World × CommandResult :=
  let flags := rest.takeWhile isCfgFlag
  let pos := rest.dropWhile isCfgFlag
  if flags.contains "--unset-all" then
    match pos with
    | [key] =>
      let f := writeFileOf flags w
      if (valuesFor f key).isEmpty then (w, ⟨5, "", ""⟩)
      else (setWriteFile flags w (f.filter fun p => !(p.1 == key)), ⟨0, "", ""⟩)
    | _ => (w, ⟨129, "", ""⟩)
  else if flags.contains "--unset" then
    match pos with
    | [key, pat] =>
      let f := writeFileOf flags w
      let keep := f.filter fun p => !(p.1 == key && anchoredValueMatch pat p.2)
      if keep.length == f.length then (w, ⟨5, "", ""⟩)
      else (setWriteFile flags w keep, ⟨0, "", ""⟩)
    | _ => (w, ⟨129, "", ""⟩)
  else if flags.contains "--add" then
    match pos with
    | [key, val] =>
      (setWriteFile flags w (writeFileOf flags w ++ [(key, val)]), ⟨0, "", ""⟩)
    | _ => (w, ⟨129, "", ""⟩)
  else if flags.contains "--get-all" then
    match pos with
    | [key] =>
      let vs := valuesFor (readEntriesOf flags w) key
      if vs.isEmpty then (w, ⟨1, "", ""⟩) else (w, ⟨0, mkLinesOut vs, ""⟩)
    | _ => (w, ⟨129, "", ""⟩)
  else if flags.contains "--get-regexp" then
    match pos with
    | [pat] =>
      let ms := (readEntriesOf flags w).filter fun p => regexpKeyMatch pat p.1
      if ms.isEmpty then (w, ⟨1, "", ""⟩)
      else (w, ⟨0, mkLinesOut (ms.map entryLine), ""⟩)
    | _ => (w, ⟨129, "", ""⟩)
  else
    match pos with
    | [key] =>
      match (valuesFor (readEntriesOf flags w) key).getLast? with
      | none => (w, ⟨1, "", ""⟩)
      | some v => (w, ⟨0, ⟨v.data ++ ['\n']⟩, ""⟩)
    | _ => (w, ⟨129, "", ""⟩)

/-- Modelled from the spec: the external executable. Only the configuration
subcommand is interpreted, since every claim under verification concerns the
configuration store; any other invocation fails. -/
def runGit (args : List String) (w : World) : World × CommandResult :=
  match args with
  | "config" :: rest => runConfigCmd rest w
  | _ => (w, ⟨1, "", ""⟩)

/-! ## The process runner (git.run, git.exec, git.execSuccess, git.show) -/

/-- State threaded through the embedded layer: the external store plus the
trace of every flattened command invocation issued so far, in order. -/
structure Eff where
  world : World
  trace : List (List String)
deriving DecidableEq

/-- Mirror of the GitError the source raises for a failed invocation: exit
code, the command value recorded by the thrower, and the trimmed output
streams. The command field holds a single argument value, exactly as the
source stores its first formal parameter there. -/
structure GitError where
  code : Int
  command : Option Arg
  output : String
  error : String

/-- Mirror of git.run: flatten the (arbitrarily nested) argument tuple at
every depth, invoke the external executable synchronously, and return its
result verbatim. The flattened invocation is recorded on the trace. -/
def git.run (args : List Arg) (e : Eff) : Eff × CommandResult :=
  let flat := flattenDeepL args
  ({ world := (runGit flat e.world).1, trace := e.trace ++ [flat] },
   (runGit flat e.world).2)

/-- Mirror of git.exec: run the command; on a non-zero exit status fail with
a GitError carrying the status, the FIRST argument of the call, and both
output streams right-trimmed; on success return the right-trimmed stdout. -/
def git.exec (args : List Arg) (e : Eff) : Eff × Except GitError String :=
  let p := git.run args e
  if p.2.status != 0 then
    (p.1, .error ⟨p.2.status, args.head?, jsTrimRight p.2.stdout, jsTrimRight p.2.stderr⟩)
  else
    (p.1, .ok (jsTrimRight p.2.stdout))

/-- Mirror of git.execSuccess: run the command and report whether it exited
with status zero, discarding the output. -/
def git.execSuccess (args : List Arg) (e : Eff) : Eff × Bool :=
  let p := git.run args e
  (p.1, p.2.status == 0)

/-- Mirror of the argument normalization of git.show (the streaming
invocation): when the first argument is an array, lodash flatten is applied
to THAT array alone (one level only); otherwise it is applied to the whole
argument tuple, again one level only. This is the argument list the spawned
child receives. -/
def git.showInvokedArgs (args : List Arg) : List Arg :=
  match args with
  | .arr l :: _ => flattenOne l
  | _ => flattenOne args

/-! ## The configuration store wrapper (git.config and friends) -/

/-- Mirror of the option objects merged over the hard-coded defaults in the
source: scope flags, multi-value read flag, regexp read flag, append flag
and uniqueness flag, all defaulting to false. The source field named local
is rendered localScope, since local is a Lean keyword. -/
structure Options where
  global : Bool := false
  localScope : Bool := false
  all : Bool := false
  regex : Bool := false
  add : Bool := false
  unique : Bool := false
deriving DecidableEq

/-- The scope flag list pushed by every configuration operation: --global
then --local, each when its option is set. -/
def scopeFlags (o : Options) : List String :=
  (if o.global then ["--global"] else []) ++
  (if o.localScope then ["--local"] else [])

/-- The flag list pushed by git.config.get, in push order: --global, --local,
--get-all, --get-regexp, each when its option is set. -/
def getFlags (o : Options) : List String :=
  (if o.global then ["--global"] else []) ++
  (if o.localScope then ["--local"] else []) ++
  (if o.all then ["--get-all"] else []) ++
  (if o.regex then ["--get-regexp"] else [])

/-- Typed rendering of the JavaScript value returned by git.config.get:
null, a single string, an ordered value list, or a key-to-values mapping
(an insertion-ordered association list; values parsed from a line with no
space are absent, mirroring the undefined the source pushes). -/
inductive GetResult where
  | nullv
  | str (s : String)
  | list (vs : List String)
  | mapping (m : List (String × List (Option String)))
deriving DecidableEq

/-- Append a parsed line's value to its key's list, creating the key at the
end of the mapping on first sight, exactly as object insertion order does in
the source. -/
def pushBinding (m : List (String × List (Option String))) (k : String)
    (v : Option String) : List (String × List (Option String)) :=
  match m with
  | [] => [(k, [v])]
  | (k', vs) :: rest =>
    if k' == k then (k', vs ++ [v]) :: rest else (k', vs) :: pushBinding rest k v

/-- Fold one raw output line into the mapping. -/
def addLine (m : List (String × List (Option String))) (line : String) :
    List (String × List (Option String)) :=
  let p := splitFirstSpace line
  pushBinding m p.1 p.2

/-- Mirror of the regexp-mode parse in git.config.get: split the raw output
on newlines, split each line at its first space, and accumulate values per
key in emission order. -/
def parseRegexpOutput (s : String) : List (String × List (Option String)) :=
  (jsSplitNl s).foldl addLine []

/-- Mirror of git.config.get: build the flag list (scope, --get-all,
--get-regexp), run the lookup through git.exec, downgrade any failure to an
empty result, and otherwise parse the output per mode. An absent options
argument behaves as the defaults, as the source's merge does. The failure
branch returns the source's one empty collection, rendered in the result
shape of the active mode. -/
def git.config.get (key : String) (opts : Option Options) (e : Eff) :
    Eff × GetResult :=
  let options := opts.getD {}
  let flags := getFlags options
  let p := git.exec [Arg.str "config", Arg.arr (flags.map Arg.str), Arg.str key] e
  match p.2 with
  | .error _ =>
    (p.1, if options.all then GetResult.list []
      else if options.regex then GetResult.mapping []
      else GetResult.nullv)
  | .ok output =>
    if options.all then (p.1, GetResult.list (jsSplitNl output))
    else if options.regex then (p.1, GetResult.mapping (parseRegexpOutput output))
    else (p.1, GetResult.str output)

/-- Extract the list carried by a get result (the shape every all-mode get
returns); used where the source treats the result as an array. -/
def getList (r : GetResult) : List String :=
  match r with
  | .list vs => vs
  | _ => []

/-- Mirror of git.config.unset: one --unset-all invocation for the key in
the targeted scope; a failure (for instance, no value to remove) propagates
to the caller. -/
def git.config.unset (key : String) (opts : Option Options) (e : Eff) :
    Eff × Except GitError String :=
  let options := opts.getD {}
  let flags := scopeFlags options
  git.exec [Arg.str "config", Arg.str "--unset-all", Arg.arr (flags.map Arg.str),
    Arg.str key] e

/-- Model of a JavaScript value passed where the source accepts a scalar, an
array, an options object, or undefined. -/
inductive JsArg where
  | str (s : String)
  | arr (l : List String)
  | obj (o : Options)
  | undef

/-- Whether the dynamic value is a string or an array, as tested by the
git.config dispatcher. -/
def isStringOrArray : JsArg → Bool
  | .str _ => true
  | .arr _ => true
  | _ => false

/-- Mirror of lodash castArray: a scalar becomes a singleton list, an array
stays. The remaining branches render JavaScript's coercion of degenerate
inputs to argument strings; no documented call pattern reaches them. -/
def castArray : JsArg → List String
  | .str s => [s]
  | .arr l => l
  | .obj _ => ["[object Object]"]
  | .undef => ["undefined"]

/-- The options object carried by a dynamic value, for the dispatcher's
argument swap (undefined stays undefined). -/
def jsArgOptions : JsArg → Option Options
  | .obj o => some o
  | _ => none

/-- The per-value write loop of git.config.set: one separate external
--add invocation per value, in the order given; a failure stops the loop and
propagates, as a throw inside forEach does. -/
def git.config.setLoop (flags : List String) (key : String) :
    List String → Eff → Eff × Except GitError Unit
  | [], e => (e, .ok ())
  | v :: rest, e =>
    let p := git.exec [Arg.str "config", Arg.arr (flags.map Arg.str), Arg.str key,
      Arg.str v] e
    match p.2 with
    | .error err => (p.1, .error err)
    | .ok _ => git.config.setLoop flags key rest p.1

/-- Mirror of git.config.set: normalize the values to a list, build the
flags (scope, then --add unconditionally); in replace mode (add false) first
best-effort clear the key, swallowing any failure; in append-unique mode
drop the values already present per an all-mode get; then write the
remaining values one invocation each and return them. -/
def git.config.set (key : String) (values : JsArg) (opts : Option Options)
    (e : Eff) : Eff × Except GitError (List String) :=
  let vs := castArray values
  let options := opts.getD {}
  let flags := scopeFlags options ++ ["--add"]
  if !options.add then
    let e1 := (git.config.unset key (some options) e).1
    let q := git.config.setLoop flags key vs e1
    (q.1, q.2.map fun _ => vs)
  else if options.unique then
    let p := git.config.get key (some { options with all := true }) e
    let vs2 := lodashDifference vs (getList p.2)
    let q := git.config.setLoop flags key vs2 p.1
    (q.1, q.2.map fun _ => vs2)
  else
    let q := git.config.setLoop flags key vs e
    (q.1, q.2.map fun _ => vs)

/-- The per-value removal loop of git.config.unsetMatching: one --unset
invocation per value, with the value anchored as ^value$; a failure stops
the loop and propagates. -/
def git.config.unsetLoop (flags : List String) (key : String) :
    List String → Eff → Eff × Except GitError Unit
  | [], e => (e, .ok ())
  | v :: rest, e =>
    let p := git.exec [Arg.str "config", Arg.str "--unset", Arg.arr (flags.map Arg.str),
      Arg.str key, Arg.str ("^" ++ v ++ "$")] e
    match p.2 with
    | .error err => (p.1, .error err)
    | .ok _ => git.config.unsetLoop flags key rest p.1

/-- Mirror of git.config.unsetMatching: intersect the requested values with
the key's current full value list (an all-mode get), remove each member of
the intersection with an anchored exact-match pattern, and return the
intersection. -/
def git.config.unsetMatching (key : String) (values : JsArg)
    (opts : Option Options) (e : Eff) : Eff × Except GitError (List String) :=
  let vs := castArray values
  let options := opts.getD {}
  let flags := scopeFlags options
  let p := git.config.get key (some { options with all := true }) e
  let vs2 := lodashIntersection vs (getList p.2)
  let q := git.config.unsetLoop flags key vs2 p.1
  (q.1, q.2.map fun _ => vs2)

/-- Typed rendering of the value returned by the combined git.config entry
point: the result of a read or the result of a write. -/
inductive ConfigResult where
  | got (r : GetResult)
  | setr (r : Except GitError (List String))

/-- Mirror of the combined git.config entry point. A call with exactly two
arguments whose second is neither a string nor an array treats that second
argument as the options and reads; an undefined value reads; anything else
writes through git.config.set. The optional third argument renders the
three-argument call shape. -/
def git.config (key : String) (arg2 : Option JsArg) (arg3 : Option Options)
    (e : Eff) : Eff × ConfigResult :=
  let p : Option JsArg × Option Options :=
    match arg2, arg3 with
    | some a, none =>
      if !(isStringOrArray a) then (none, jsArgOptions a) else (some a, none)
    | _, _ => (arg2, arg3)
  match p.1 with
  | none =>
    let q := git.config.get key p.2 e
    (q.1, .got q.2)
  | some JsArg.undef =>
    let q := git.config.get key p.2 e
    (q.1, .got q.2)
  | some v =>
    let q := git.config.set key v p.2 e
    (q.1, .setr q.2)

/-- The object keys of a dynamic get result, as lodash keys sees them: the
mapping's keys in insertion order; index keys for an array or a string; no
keys for null. -/
def jsKeys : ConfigResult → List String
  | .got (.mapping m) => m.map fun p => p.1
  | .got (.list vs) => (List.range vs.length).map toString
  | .got (.str s) => (List.range s.length).map toString
  | .got .nullv => []
  | .setr _ => []

/-- Mirror of git.config.subsections: force regexp mode onto the caller's
options, read every key of the section through the combined entry point with
the pattern ^section\., then map each key of the resulting mapping to a
subsection name by dropping the section-plus-dot prefix and the trailing
dot-plus-leaf suffix, preserving mapping order. -/
def git.config.subsections (sectionName : String) (opts : Option Options)
    (e : Eff) : Eff × List String :=
  let options := { (opts.getD {}) with regex := true }
  let p := git.config ("^" ++ sectionName ++ "\\.") (some (.obj options)) none e
  (p.1, (jsKeys p.2).map fun sub =>
    stripLastComponent (jsSubstrFrom sub (sectionName.length + 1)))

/-! ## Derived descriptions used by the theorems -/

/-- The entries a read sees under the given options: one file under an
explicit scope flag, otherwise all files merged with local last. Agrees with
the flag interpretation of the modelled store. -/
def readScopeEntries (o : Options) (w : World) : List Entry :=
  if o.global then w.globalFile
  else if o.localScope then w.localFile
  else w.globalFile ++ w.localFile

/-- The scope file a write targets under the given options. -/
def writeScopeEntries (o : Options) (w : World) : List Entry :=
  if o.global then w.globalFile else w.localFile

/-- A value the text protocol transports losslessly: nonempty, free of
newlines, and not ending in whitespace (a trailing newline or space would be
consumed by the right-trim or split of the read path). -/
def cleanVal (s : String) : Bool :=
  !s.data.isEmpty &&
  s.data.all (fun c => c != '\n') &&
  (match s.data.reverse with
   | [] => false
   | c :: _ => !c.isWhitespace)

/-- A key the command line transports positionally: not one of the store's
option flags. -/
def plainKey (s : String) : Bool := !(isCfgFlag s)

/-- A configuration key the text protocol transports losslessly on a
regexp-output line: nonempty and free of whitespace (real store keys are
dot-separated identifiers). -/
def cleanKey (s : String) : Bool :=
  !s.data.isEmpty && s.data.all fun c => !c.isWhitespace

/-- The flattened invocation issued by the best-effort clear step of a
replace-mode write (and by git.config.unset). -/
def unsetAllCmd (o : Options) (key : String) : List String :=
  ["config", "--unset-all"] ++ scopeFlags o ++ [key]

/-- The flattened invocation issued for one value by the write loop of
git.config.set. -/
def addCmd (o : Options) (key v : String) : List String :=
  ["config"] ++ scopeFlags o ++ ["--add", key, v]

/-- The flattened invocation issued by git.config.get. -/
def getCmd (o : Options) (key : String) : List String :=
  ["config"] ++ getFlags o ++ [key]

/-- The flattened invocation issued for one value by the removal loop of
git.config.unsetMatching, with the value anchored as an exact-match
pattern. -/
def unsetOneCmd (o : Options) (key v : String) : List String :=
  ["config", "--unset"] ++ scopeFlags o ++ [key, "^" ++ v ++ "$"]

/-- Apply an update to the scope file a write targets under the given
options, leaving the other file unchanged. -/
def updW (o : Options) (w : World) (f : List Entry → List Entry) : World :=
  if o.global then { w with globalFile := f w.globalFile }
  else { w with localFile := f w.localFile }

/-- Whether a write result is the raised-error outcome. -/
def isErr (r : Except GitError (List String)) : Bool :=
  match r with
  | .error _ => true
  | .ok _ => false

/-- The flattened view of the command value recorded in a raised error (the
invoked command would be the full flattened argument list). -/
def errCommandArgs (r : Except GitError String) : List String :=
  match r with
  | .error err =>
    match err.command with
    | some a => flattenDeepA a
    | none => []
  | .ok _ => []

/-- Lookup in the association-list rendering of the regexp-mode mapping:
the ordered value list bound to a key, or none when the key is absent. -/
def findVals (m : List (String × List (Option String))) (k : String) :
    Option (List (Option String)) :=
  match m with
  | [] => none
  | (k', vs) :: rest => if k' == k then some vs else findVals rest k

/-! ## Lemmas about argument flattening -/

theorem flattenDeepL_append (l1 l2 : List Arg) :
    flattenDeepL (l1 ++ l2) = flattenDeepL l1 ++ flattenDeepL l2 := by
  induction l1 with
  | nil => rfl
  | cons a r ih => simp [flattenDeepL, ih, List.append_assoc]

theorem flattenDeepL_map_str (l : List String) :
    flattenDeepL (l.map Arg.str) = l := by
  induction l with
  | nil => rfl
  | cons a r ih => simp [flattenDeepL, flattenDeepA, ih]

/-! ## Lemmas about the text protocol helpers -/

theorem splitNlL_ne_nil (l : List Char) : splitNlL l ≠ [] := by
  induction l with
  | nil => simp [splitNlL]
  | cons c r ih =>
    simp only [splitNlL]
    split
    · simp
    · cases h : splitNlL r <;> simp [consHead]

theorem splitNlL_no_nl (l : List Char) (h : '\n' ∉ l) : splitNlL l = [l] := by
  induction l with
  | nil => rfl
  | cons c r ih =>
    have hc : ¬(c = '\n') := fun hh => h (by simp [hh])
    have hr : '\n' ∉ r := fun hm => h (List.mem_cons_of_mem _ hm)
    simp only [splitNlL]
    rw [if_neg hc, ih hr]
    rfl

theorem splitNlL_append_nl (l t : List Char) (h : '\n' ∉ l) :
    splitNlL (l ++ '\n' :: t) = l :: splitNlL t := by
  induction l with
  | nil => simp [splitNlL]
  | cons c r ih =>
    have hc : ¬(c = '\n') := fun hh => h (by simp [hh])
    have hr : '\n' ∉ r := fun hm => h (List.mem_cons_of_mem _ hm)
    simp only [List.cons_append, splitNlL]
    rw [if_neg hc]
    simp only [List.append_eq]
    rw [ih hr]
    rfl

theorem splitNl_intercalate (ls : List (List Char)) (h : ls ≠ [])
    (hc : ∀ l ∈ ls, '\n' ∉ l) : splitNlL (intercalateNlL ls) = ls := by
  induction ls with
  | nil => cases h rfl
  | cons l rest ih =>
    cases rest with
    | nil => simpa [intercalateNlL] using splitNlL_no_nl l (hc l (by simp))
    | cons l2 rs =>
      have he : intercalateNlL (l :: l2 :: rs) = l ++ '\n' :: intercalateNlL (l2 :: rs) := rfl
      rw [he, splitNlL_append_nl _ _ (hc l (by simp)),
        ih (by simp) (fun x hx => hc x (by simp [hx]))]

theorem trimRightL_append_nl (l : List Char) :
    trimRightL (l ++ ['\n']) = trimRightL l := by
  simp [trimRightL, List.reverse_append, List.dropWhile]

theorem trimRightL_eq_self (l : List Char)
    (h : ∀ c, l.reverse.head? = some c → c.isWhitespace = false) :
    trimRightL l = l := by
  unfold trimRightL
  cases hr : l.reverse with
  | nil =>
    have : l = [] := by simpa using congrArg List.reverse hr
    simp [this]
  | cons c r =>
    have hc : c.isWhitespace = false := h c (by rw [hr]; rfl)
    have hl : l = (c :: r).reverse := by
      have := congrArg List.reverse hr
      simpa using this
    simp only [List.dropWhile, hc]
    exact hl.symm

theorem intercalateNlL_ne_nil (ls : List (List Char)) (lp : List Char)
    (h : ls.getLast? = some lp) (hne : lp ≠ []) : intercalateNlL ls ≠ [] := by
  cases ls with
  | nil => simp at h
  | cons l rest =>
    cases rest with
    | nil =>
      have : l = lp := by simpa using h
      simpa [intercalateNlL, this] using hne
    | cons l2 rs => simp [intercalateNlL]

theorem intercalateNlL_rev_head (ls : List (List Char)) (lp : List Char)
    (h : ls.getLast? = some lp) (hne : lp ≠ []) :
    (intercalateNlL ls).reverse.head? = lp.reverse.head? := by
  induction ls with
  | nil => simp at h
  | cons l rest ih =>
    cases rest with
    | nil =>
      have : l = lp := by simpa using h
      simp [intercalateNlL, this]
    | cons l2 rs =>
      have h' : (l2 :: rs).getLast? = some lp := by
        rw [← h]; exact (List.getLast?_cons_cons ..).symm
      have hX : intercalateNlL (l2 :: rs) ≠ [] := intercalateNlL_ne_nil _ _ h' hne
      have he : intercalateNlL (l :: l2 :: rs) = l ++ '\n' :: intercalateNlL (l2 :: rs) := rfl
      rw [he, ← ih h']
      cases hXr : (intercalateNlL (l2 :: rs)).reverse with
      | nil => exact absurd (by simpa using congrArg List.reverse hXr) hX
      | cons c cs => simp [List.reverse_append, hXr]

/-! ## Decoding the store's output blocks -/

theorem cleanVal_parts (v : String) (h : cleanVal v = true) :
    v.data ≠ [] ∧ '\n' ∉ v.data ∧
      (∀ c, v.data.reverse.head? = some c → c.isWhitespace = false) := by
  simp only [cleanVal, Bool.and_eq_true] at h
  obtain ⟨⟨h1, h2⟩, h3⟩ := h
  refine ⟨by simpa using h1, ?_, ?_⟩
  · intro hm
    have := List.all_eq_true.1 h2 _ hm
    simp at this
  · intro c hc
    cases hr : v.data.reverse with
    | nil => rw [hr] at hc; simp at hc
    | cons c0 cs =>
      rw [hr] at hc h3
      simp only [List.head?] at hc
      cases hc
      simpa using h3

theorem decode_linesOut (vs : List String) (h : vs ≠ [])
    (hc : ∀ v ∈ vs, cleanVal v = true) :
    jsSplitNl (jsTrimRight (mkLinesOut vs)) = vs := by
  have hdata : (mkLinesOut vs).data = intercalateNlL (vs.map String.data) ++ ['\n'] := rfl
  obtain ⟨vlast, hlast⟩ : ∃ vlast, vs.getLast? = some vlast := by
    cases hv : vs.getLast? with
    | none => exact absurd (List.getLast?_eq_none_iff.1 hv) h
    | some x => exact ⟨x, rfl⟩
  have hlmem : vlast ∈ vs := List.mem_of_mem_getLast? hlast
  have hlparts := cleanVal_parts vlast (hc _ hlmem)
  have hmaplast : (vs.map String.data).getLast? = some vlast.data := by
    rw [List.getLast?_map, hlast]; rfl
  have htrim : trimRightL ((mkLinesOut vs).data) = intercalateNlL (vs.map String.data) := by
    rw [hdata, trimRightL_append_nl]
    refine trimRightL_eq_self _ ?_
    intro c hch
    have := intercalateNlL_rev_head (vs.map String.data) vlast.data hmaplast hlparts.1
    rw [this] at hch
    exact hlparts.2.2 c hch
  have hsplit : splitNlL (intercalateNlL (vs.map String.data)) = vs.map String.data := by
    refine splitNl_intercalate _ (by simpa using h) ?_
    intro l hl
    obtain ⟨v, hv, rfl⟩ := List.mem_map.1 hl
    exact (cleanVal_parts v (hc v hv)).2.1
  show ((splitNlL (jsTrimRight (mkLinesOut vs)).data).map fun l => (⟨l⟩ : String)) = vs
  have : (jsTrimRight (mkLinesOut vs)).data = trimRightL ((mkLinesOut vs).data) := rfl
  rw [this, htrim, hsplit]
  simp only [List.map_map]
  have : (fun l => (⟨l⟩ : String)) ∘ String.data = id := by
    funext s; rfl
  rw [this, List.map_id]

theorem decode_valOut (v : String) (h : cleanVal v = true) :
    jsTrimRight ⟨v.data ++ ['\n']⟩ = v := by
  obtain ⟨_, _, h3⟩ := cleanVal_parts v h
  show (⟨trimRightL (v.data ++ ['\n'])⟩ : String) = v
  rw [trimRightL_append_nl, trimRightL_eq_self _ h3]

/-! ## Lemmas about the store's entry lists -/

theorem valuesFor_append (f g : List Entry) (key : String) :
    valuesFor (f ++ g) key = valuesFor f key ++ valuesFor g key := by
  simp [valuesFor]

theorem valuesFor_filter_out (f : List Entry) (key : String) :
    valuesFor (f.filter fun p => !(p.1 == key)) key = [] := by
  unfold valuesFor
  rw [List.filter_filter]
  have : (f.filter fun p => p.1 == key && !(p.1 == key)) = f.filter fun _ => false := by
    refine List.filter_congr ?_
    intro p _
    by_cases h : p.1 = key <;> simp [h]
  rw [this]
  simp

theorem valuesFor_other (f : List Entry) (key k2 : String) (h : k2 ≠ key) :
    valuesFor (f.filter fun p => !(p.1 == key)) k2 = valuesFor f k2 := by
  unfold valuesFor
  rw [List.filter_filter]
  have : (f.filter fun p => p.1 == k2 && !(p.1 == key)) = f.filter fun p => p.1 == k2 := by
    refine List.filter_congr ?_
    intro p _
    by_cases hk : p.1 = k2
    · have : ¬(p.1 = key) := by rw [hk]; exact h
      simp [hk, this, h]
    · simp [hk]
  rw [this]

theorem valuesFor_appends (f : List Entry) (key : String) (vs : List String) :
    valuesFor (f ++ vs.map fun v => (key, v)) key = valuesFor f key ++ vs := by
  rw [valuesFor_append]
  have : valuesFor (vs.map fun v => (key, v)) key = vs := by
    induction vs with
    | nil => rfl
    | cons v r ih => simpa [valuesFor, List.filter] using ih
  rw [this]

theorem mem_valuesFor (f : List Entry) (key v : String) :
    v ∈ valuesFor f key ↔ (key, v) ∈ f := by
  simp only [valuesFor, List.mem_map, List.mem_filter]
  constructor
  · rintro ⟨p, ⟨hp, hpk⟩, rfl⟩
    have : p.1 = key := by simpa using hpk
    have hpe : p = (key, p.2) := by
      cases p; simp at this ⊢; exact this
    rw [← hpe]; exact hp
  · intro hm
    exact ⟨(key, v), ⟨hm, by simp⟩, rfl⟩

/-! ## Parsing the issued command lines -/

theorem takeWhile_flags (fl : List String) (key : String) (rest : List String)
    (hfl : ∀ x ∈ fl, isCfgFlag x = true) (hk : isCfgFlag key = false) :
    (fl ++ key :: rest).takeWhile isCfgFlag = fl ∧
      (fl ++ key :: rest).dropWhile isCfgFlag = key :: rest := by
  induction fl with
  | nil => simp [List.takeWhile_cons, List.dropWhile_cons, hk]
  | cons x xs ih =>
    have hx : isCfgFlag x = true := hfl x (by simp)
    obtain ⟨h1, h2⟩ := ih fun y hy => hfl y (by simp [hy])
    simp [List.takeWhile_cons, List.dropWhile_cons, hx, h1, h2]

theorem plainKey_false (key : String) (hk : plainKey key = true) :
    isCfgFlag key = false := by
  simpa [plainKey] using hk

theorem filter_eq_self_of_no_values (f : List Entry) (key : String)
    (h : valuesFor f key = []) : (f.filter fun p => !(p.1 == key)) = f := by
  have h2 : f.filter (fun p => p.1 == key) = [] := by
    have := congrArg List.length h
    simpa [valuesFor, List.length_eq_zero] using this
  refine List.filter_eq_self.2 ?_
  intro p hp
  have := List.filter_eq_nil_iff.1 h2 p hp
  simpa using this

theorem mem_scopeFlags_isCfgFlag (o : Options) :
    ∀ x ∈ scopeFlags o, isCfgFlag x = true := by
  obtain ⟨g, l, a, r, ad, u⟩ := o
  cases g <;> cases l <;> cases a <;> cases r <;> cases ad <;> cases u <;> decide

theorem mem_getFlags_isCfgFlag (o : Options) :
    ∀ x ∈ getFlags o, isCfgFlag x = true := by
  obtain ⟨g, l, a, r, ad, u⟩ := o
  cases g <;> cases l <;> cases a <;> cases r <;> cases ad <;> cases u <;> decide


/-! ## Evaluation of the process runner and each issued store command -/

theorem git_exec_eval (args : List Arg) (e : Eff) :
    git.exec args e =
      ({ world := (runGit (flattenDeepL args) e.world).1,
         trace := e.trace ++ [flattenDeepL args] },
       if (runGit (flattenDeepL args) e.world).2.status = 0 then
         Except.ok (jsTrimRight (runGit (flattenDeepL args) e.world).2.stdout)
       else
         Except.error ⟨(runGit (flattenDeepL args) e.world).2.status, args.head?,
           jsTrimRight (runGit (flattenDeepL args) e.world).2.stdout,
           jsTrimRight (runGit (flattenDeepL args) e.world).2.stderr⟩) := by
  unfold git.exec git.run
  by_cases hs : (runGit (flattenDeepL args) e.world).2.status = 0 <;>
    simp [hs, bne_iff_ne]

theorem contains_cons (b : String) (l : List String) (a : String) :
    (b :: l).contains a = (a == b || l.contains a) := by
  show List.elem a (b :: l) = _
  cases h : a == b <;> simp [List.elem, h]

theorem scopeFlags_contains_global (o : Options) :
    (scopeFlags o).contains "--global" = o.global := by
  obtain ⟨g, l, a, r, ad, u⟩ := o
  cases g <;> cases l <;> cases a <;> cases r <;> cases ad <;> cases u <;> decide

theorem scopeFlags_contains_local (o : Options) :
    (scopeFlags o).contains "--local" = o.localScope := by
  obtain ⟨g, l, a, r, ad, u⟩ := o
  cases g <;> cases l <;> cases a <;> cases r <;> cases ad <;> cases u <;> decide

theorem scopeFlags_contains_other (o : Options) (x : String)
    (h1 : ¬(x = "--global")) (h2 : ¬(x = "--local")) :
    (scopeFlags o).contains x = false := by
  by_cases hg : o.global <;> by_cases hl : o.localScope <;>
    simp [scopeFlags, hg, hl, contains_cons, beq_iff_eq, h1, h2, List.contains]

theorem mem_scopeFlags_global_iff (o : Options) :
    "--global" ∈ scopeFlags o ↔ o.global = true := by
  by_cases hg : o.global <;> by_cases hl : o.localScope <;> simp [scopeFlags, hg, hl]

theorem mem_scopeFlags_local_iff (o : Options) :
    "--local" ∈ scopeFlags o ↔ o.localScope = true := by
  by_cases hg : o.global <;> by_cases hl : o.localScope <;> simp [scopeFlags, hg, hl]

theorem runGit_unsetAll (o : Options) (key : String) (w : World)
    (hk : plainKey key = true) :
    runGit (unsetAllCmd o key) w =
      (updW o w fun f => f.filter fun p => !(p.1 == key),
       if (valuesFor (writeScopeEntries o w) key).isEmpty then
         (⟨5, "", ""⟩ : CommandResult)
       else (⟨0, "", ""⟩ : CommandResult)) := by
  have hk' := plainKey_false key hk
  have hfl : ∀ x ∈ "--unset-all" :: scopeFlags o, isCfgFlag x = true := by
    intro x hx
    rcases List.mem_cons.1 hx with rfl | hx
    · decide
    · exact mem_scopeFlags_isCfgFlag o x hx
  obtain ⟨htw, hdw⟩ := takeWhile_flags ("--unset-all" :: scopeFlags o) key [] hfl hk'
  simp only [List.cons_append] at htw hdw
  have hcmd : unsetAllCmd o key = "config" :: ("--unset-all" :: (scopeFlags o ++ [key])) := by
    simp [unsetAllCmd]
  rw [hcmd]
  show runConfigCmd ("--unset-all" :: (scopeFlags o ++ [key])) w = _
  unfold runConfigCmd
  rw [htw, hdw]
  by_cases hv : (valuesFor (writeScopeEntries o w) key).isEmpty
  · have hnil : valuesFor (writeScopeEntries o w) key = [] := by
      simpa [List.isEmpty_iff] using hv
    have hid : ((writeScopeEntries o w).filter fun p => !(p.1 == key)) =
        writeScopeEntries o w := filter_eq_self_of_no_values _ _ hnil
    by_cases hg : o.global
    · have hws : writeScopeEntries o w = w.globalFile := by simp [writeScopeEntries, hg]
      rw [hws] at hnil hid
      simp [hg, writeFileOf, setWriteFile, updW, mem_scopeFlags_global_iff,
        writeScopeEntries, List.isEmpty_iff, hnil]
      rw [hid]
    · have hws : writeScopeEntries o w = w.localFile := by simp [writeScopeEntries, hg]
      rw [hws] at hnil hid
      simp [hg, writeFileOf, setWriteFile, updW, mem_scopeFlags_global_iff,
        writeScopeEntries, List.isEmpty_iff, hnil]
      rw [hid]
  · by_cases hg : o.global
    · have hws : writeScopeEntries o w = w.globalFile := by simp [writeScopeEntries, hg]
      rw [hws] at hv
      simp [hg, writeFileOf, setWriteFile, updW, mem_scopeFlags_global_iff,
        writeScopeEntries, List.isEmpty_iff] at hv ⊢
      simp [hv]
    · have hws : writeScopeEntries o w = w.localFile := by simp [writeScopeEntries, hg]
      rw [hws] at hv
      simp [hg, writeFileOf, setWriteFile, updW, mem_scopeFlags_global_iff,
        writeScopeEntries, List.isEmpty_iff] at hv ⊢
      simp [hv]

theorem mem_scopeFlags_iff (o : Options) (x : String) :
    x ∈ scopeFlags o ↔
      (x = "--global" ∧ o.global = true) ∨ (x = "--local" ∧ o.localScope = true) := by
  by_cases hg : o.global <;> by_cases hl : o.localScope <;>
    simp [scopeFlags, hg, hl]

theorem mem_getFlags_iff (o : Options) (x : String) :
    x ∈ getFlags o ↔
      ((x = "--global" ∧ o.global = true) ∨ (x = "--local" ∧ o.localScope = true) ∨
       (x = "--get-all" ∧ o.all = true) ∨ (x = "--get-regexp" ∧ o.regex = true)) := by
  by_cases hg : o.global <;> by_cases hl : o.localScope <;>
    by_cases ha : o.all <;> by_cases hr : o.regex <;>
    simp [getFlags, hg, hl, ha, hr]

theorem runGit_add (o : Options) (key v : String) (w : World)
    (hk : plainKey key = true) :
    runGit (addCmd o key v) w =
      (updW o w fun f => f ++ [(key, v)], (⟨0, "", ""⟩ : CommandResult)) := by
  have hk' := plainKey_false key hk
  have hfl : ∀ x ∈ scopeFlags o ++ ["--add"], isCfgFlag x = true := by
    intro x hx
    rcases List.mem_append.1 hx with hx | hx
    · exact mem_scopeFlags_isCfgFlag o x hx
    · rcases List.mem_singleton.1 hx with rfl; decide
  obtain ⟨htw, hdw⟩ := takeWhile_flags (scopeFlags o ++ ["--add"]) key [v] hfl hk'
  have hcmd : addCmd o key v = "config" :: ((scopeFlags o ++ ["--add"]) ++ key :: [v]) := by
    simp [addCmd]
  rw [hcmd]
  show runConfigCmd ((scopeFlags o ++ ["--add"]) ++ key :: [v]) w = _
  unfold runConfigCmd
  rw [htw, hdw]
  by_cases hg : o.global <;>
    simp [hg, writeFileOf, setWriteFile, updW, mem_scopeFlags_iff, List.mem_append]

theorem readEntriesOf_getFlags (o : Options) (w : World) :
    readEntriesOf (getFlags o) w = readScopeEntries o w := by
  by_cases hg : o.global <;> by_cases hl : o.localScope <;>
    simp [readEntriesOf, readScopeEntries, mem_getFlags_iff, hg, hl]

theorem runGit_getAll (o : Options) (key : String) (w : World)
    (hk : plainKey key = true) (hall : o.all = true) :
    runGit (getCmd o key) w =
      (w,
       if (valuesFor (readScopeEntries o w) key).isEmpty then
         (⟨1, "", ""⟩ : CommandResult)
       else (⟨0, mkLinesOut (valuesFor (readScopeEntries o w) key), ""⟩ : CommandResult)) := by
  have hk' := plainKey_false key hk
  obtain ⟨htw, hdw⟩ :=
    takeWhile_flags (getFlags o) key [] (mem_getFlags_isCfgFlag o) hk'
  have hcmd : getCmd o key = "config" :: (getFlags o ++ key :: []) := by
    simp [getCmd]
  rw [hcmd]
  show runConfigCmd (getFlags o ++ key :: []) w = _
  unfold runConfigCmd
  rw [htw, hdw]
  simp [mem_getFlags_iff, hall, readEntriesOf_getFlags]
  by_cases hv : (valuesFor (readScopeEntries o w) key).isEmpty <;> simp_all

theorem hat_ne (s t : String) (ht : t.data.head? = some '-') : ¬("^" ++ s = t) := by
  intro h
  have hd : ("^" ++ s).data.head? = some '^' := by
    show (("^" : String).data ++ s.data).head? = some '^'
    rfl
  rw [h, ht] at hd
  simp at hd

theorem hat_plainKey (s : String) : plainKey ("^" ++ s) = true := by
  have hnm : ("^" ++ s) ∉ cfgFlags := by
    intro hmem
    simp only [cfgFlags, List.mem_cons, List.not_mem_nil, or_false] at hmem
    rcases hmem with h | h | h | h | h | h | h | h | h <;>
      exact hat_ne s _ (by decide) h
  simp [plainKey, isCfgFlag, hnm]

theorem string_append_assoc (a b c : String) : a ++ b ++ c = a ++ (b ++ c) := by
  cases a; cases b; cases c
  show String.mk _ = String.mk _
  simp [String.append, List.append_assoc]

theorem anchored_exact (v x : String) :
    anchoredValueMatch ("^" ++ v ++ "$") x = (x == v) := by
  have hd : ("^" ++ v ++ "$").data = '^' :: (v.data ++ ['$']) := by
    show (("^" : String).data ++ v.data ++ ("$" : String).data) = _
    simp
  unfold anchoredValueMatch
  rw [hd]
  have hrev : (v.data ++ ['$']).reverse = '$' :: v.data.reverse := by simp
  simp only [hrev, List.reverse_reverse]
  by_cases h : x = v
  · simp [h]
  · have hne : ¬(x.data = v.data) := by
      intro hh
      apply h
      cases x; cases v
      exact congrArg String.mk hh
    simp [h, hne]

theorem regexpKeyMatch_hat (sec key : String) :
    regexpKeyMatch ("^" ++ sec ++ "\\.") key =
      (sec.data ++ ['.']).isPrefixOf key.data := by
  have hd : ("^" ++ sec ++ "\\.").data = '^' :: (sec.data ++ ['\\', '.']) := by
    show (("^" : String).data ++ sec.data ++ ("\\." : String).data) = _
    simp
  unfold regexpKeyMatch
  rw [hd]
  have hrev : (sec.data ++ ['\\', '.']).reverse = '.' :: '\\' :: sec.data.reverse := by
    simp
  simp only [hrev, List.reverse_reverse]

theorem runGit_getRegexp (o : Options) (pat : String) (w : World)
    (hk : plainKey pat = true) (hall : o.all = false) (hregex : o.regex = true) :
    runGit (getCmd o pat) w =
      (w,
       if ((readScopeEntries o w).filter fun p => regexpKeyMatch pat p.1).isEmpty then
         (⟨1, "", ""⟩ : CommandResult)
       else
         (⟨0, mkLinesOut (((readScopeEntries o w).filter fun p =>
            regexpKeyMatch pat p.1).map entryLine), ""⟩ : CommandResult)) := by
  have hk' := plainKey_false pat hk
  obtain ⟨htw, hdw⟩ :=
    takeWhile_flags (getFlags o) pat [] (mem_getFlags_isCfgFlag o) hk'
  have hcmd : getCmd o pat = "config" :: (getFlags o ++ pat :: []) := by
    simp [getCmd]
  rw [hcmd]
  show runConfigCmd (getFlags o ++ pat :: []) w = _
  unfold runConfigCmd
  rw [htw, hdw]
  simp [mem_getFlags_iff, hall, hregex]
  rw [readEntriesOf_getFlags]
  by_cases hv :
      ((readScopeEntries o w).filter fun p => regexpKeyMatch pat p.1).isEmpty = true <;>
    simp [hv]

theorem filter_anchored (f : List Entry) (key v : String) :
    (f.filter fun p => !(p.1 == key && anchoredValueMatch ("^" ++ v ++ "$") p.2)) =
      f.filter fun p => !(p.1 == key && p.2 == v) := by
  refine List.filter_congr ?_
  intro p _
  rw [anchored_exact]

theorem runGit_unsetOne (o : Options) (key v : String) (w : World)
    (hk : plainKey key = true) :
    runGit (unsetOneCmd o key v) w =
      (if (key, v) ∈ writeScopeEntries o w then
        (updW o w fun f => f.filter fun p => !(p.1 == key && p.2 == v),
         (⟨0, "", ""⟩ : CommandResult))
      else (w, (⟨5, "", ""⟩ : CommandResult))) := by
  have hk' := plainKey_false key hk
  have hfl : ∀ x ∈ "--unset" :: scopeFlags o, isCfgFlag x = true := by
    intro x hx
    rcases List.mem_cons.1 hx with rfl | hx
    · decide
    · exact mem_scopeFlags_isCfgFlag o x hx
  obtain ⟨htw, hdw⟩ :=
    takeWhile_flags ("--unset" :: scopeFlags o) key ["^" ++ v ++ "$"] hfl hk'
  simp only [List.cons_append] at htw hdw
  have hcmd : unsetOneCmd o key v =
      "config" :: ("--unset" :: (scopeFlags o ++ [key, "^" ++ v ++ "$"])) := by
    simp [unsetOneCmd]
  rw [hcmd]
  show runConfigCmd ("--unset" :: (scopeFlags o ++ [key, "^" ++ v ++ "$"])) w = _
  unfold runConfigCmd
  rw [htw, hdw]
  simp only [filter_anchored]
  by_cases hmem : (key, v) ∈ writeScopeEntries o w
  · have hlt : (((writeScopeEntries o w).filter fun p =>
        !(p.1 == key && p.2 == v)).length < (writeScopeEntries o w).length) :=
      List.length_filter_lt_length_iff_exists.2 ⟨(key, v), hmem, by simp⟩
    have hne : ((((writeScopeEntries o w).filter fun p =>
        !(p.1 == key && p.2 == v)).length == (writeScopeEntries o w).length)) = false := by
      simpa using Nat.ne_of_lt hlt
    by_cases hg : o.global
    · have hws : writeScopeEntries o w = w.globalFile := by simp [writeScopeEntries, hg]
      rw [hws] at hmem hne
      simp [hg, hmem, setWriteFile, updW, writeFileOf, contains_cons,
        scopeFlags_contains_global, mem_scopeFlags_iff, hws, hne]
    · have hws : writeScopeEntries o w = w.localFile := by simp [writeScopeEntries, hg]
      rw [hws] at hmem hne
      simp [hg, hmem, setWriteFile, updW, writeFileOf, contains_cons,
        scopeFlags_contains_global, mem_scopeFlags_iff, hws, hne]
  · have heq : ((writeScopeEntries o w).filter fun p =>
        !(p.1 == key && p.2 == v)) = writeScopeEntries o w := by
      refine List.filter_eq_self.2 ?_
      intro p hp
      have hpne : ¬(p = (key, v)) := fun hh => hmem (hh ▸ hp)
      by_cases h1 : p.1 = key
      · by_cases h2 : p.2 = v
        · exact absurd (Prod.ext h1 h2) hpne
        · simp [h1, h2]
      · simp [h1]
    by_cases hg : o.global
    · have hws : writeScopeEntries o w = w.globalFile := by simp [writeScopeEntries, hg]
      rw [hws] at hmem heq
      simp [hg, hmem, setWriteFile, updW, writeFileOf, contains_cons,
        scopeFlags_contains_global, mem_scopeFlags_iff, hws, heq]
    · have hws : writeScopeEntries o w = w.localFile := by simp [writeScopeEntries, hg]
      rw [hws] at hmem heq
      simp [hg, hmem, setWriteFile, updW, writeFileOf, contains_cons,
        scopeFlags_contains_global, mem_scopeFlags_iff, hws, heq]

/-! ## Evaluation of the configuration-store wrappers -/

theorem jsTrimRight_empty : jsTrimRight "" = "" := rfl

theorem updW_updW (o : Options) (w : World) (f g : List Entry → List Entry) :
    updW o (updW o w f) g = updW o w fun x => g (f x) := by
  by_cases hg : o.global <;> simp [updW, hg]

theorem updW_id (o : Options) (w : World) : (updW o w fun f => f) = w := by
  by_cases hg : o.global <;> simp [updW, hg]

theorem writeScopeEntries_updW (o : Options) (w : World) (f : List Entry → List Entry) :
    writeScopeEntries o (updW o w f) = f (writeScopeEntries o w) := by
  by_cases hg : o.global <;> simp [updW, writeScopeEntries, hg]

theorem config_unset_eval (o : Options) (key : String) (e : Eff)
    (hk : plainKey key = true) :
    git.config.unset key (some o) e =
      ({ world := updW o e.world fun f => f.filter fun p => !(p.1 == key),
         trace := e.trace ++ [unsetAllCmd o key] },
       if (valuesFor (writeScopeEntries o e.world) key).isEmpty then
         Except.error ⟨5, some (Arg.str "config"), "", ""⟩
       else Except.ok "") := by
  unfold git.config.unset
  rw [git_exec_eval]
  have hflat : flattenDeepL [Arg.str "config", Arg.str "--unset-all",
      Arg.arr (((some o).getD {} : Options) |> scopeFlags |>.map Arg.str), Arg.str key] =
      unsetAllCmd o key := by
    simp [flattenDeepL, flattenDeepA, flattenDeepL_map_str, unsetAllCmd]
  rw [hflat, runGit_unsetAll o key e.world hk]
  by_cases hv : (valuesFor (writeScopeEntries o e.world) key).isEmpty <;>
    simp [hv, jsTrimRight_empty]

theorem setLoop_eval (o : Options) (key : String) (vs : List String) (e : Eff)
    (hk : plainKey key = true) :
    git.config.setLoop (scopeFlags o ++ ["--add"]) key vs e =
      ({ world := updW o e.world fun f => f ++ vs.map fun v => (key, v),
         trace := e.trace ++ vs.map (addCmd o key) }, Except.ok ()) := by
  induction vs generalizing e with
  | nil =>
    simp only [git.config.setLoop, List.map_nil, List.append_nil]
    rw [updW_id]
  | cons v rest ih =>
    unfold git.config.setLoop
    rw [git_exec_eval]
    have hflat : flattenDeepL [Arg.str "config",
        Arg.arr ((scopeFlags o ++ ["--add"]).map Arg.str), Arg.str key, Arg.str v] =
        addCmd o key v := by
      simp [flattenDeepL, flattenDeepA, flattenDeepL_map_str, flattenDeepL_append,
        List.map_append, addCmd, List.append_assoc]
    rw [hflat, runGit_add o key v e.world hk]
    simp only []
    rw [ih]
    refine congrArg (fun x => (x, Except.ok ())) ?_
    rw [updW_updW]
    simp [List.append_assoc]

theorem config_getAll_eval (o : Options) (key : String) (e : Eff)
    (hk : plainKey key = true) (hall : o.all = true)
    (hclean : ∀ v ∈ valuesFor (readScopeEntries o e.world) key, cleanVal v = true) :
    git.config.get key (some o) e =
      ({ world := e.world, trace := e.trace ++ [getCmd o key] },
       GetResult.list (valuesFor (readScopeEntries o e.world) key)) := by
  unfold git.config.get
  simp only []
  rw [git_exec_eval]
  have hflat : flattenDeepL [Arg.str "config",
      Arg.arr ((getFlags (((some o).getD {} : Options))).map Arg.str), Arg.str key] =
      getCmd o key := by
    simp [flattenDeepL, flattenDeepA, flattenDeepL_map_str, getCmd]
  rw [hflat, runGit_getAll o key e.world hk hall]
  by_cases hv : (valuesFor (readScopeEntries o e.world) key).isEmpty
  · have hnil : valuesFor (readScopeEntries o e.world) key = [] := by
      simpa [List.isEmpty_iff] using hv
    simp [hv, hall, hnil]
  · have hne : valuesFor (readScopeEntries o e.world) key ≠ [] := by
      simpa [List.isEmpty_iff] using hv
    have hdec := decode_linesOut _ hne hclean
    simp [hv, hall, hdec]

theorem config_getRegexp_eval (o : Options) (pat : String) (e : Eff)
    (hk : plainKey pat = true) (hall : o.all = false) (hregex : o.regex = true) :
    git.config.get pat (some o) e =
      ({ world := e.world, trace := e.trace ++ [getCmd o pat] },
       if ((readScopeEntries o e.world).filter fun p => regexpKeyMatch pat p.1).isEmpty then
         GetResult.mapping []
       else
         GetResult.mapping (parseRegexpOutput (jsTrimRight (mkLinesOut
           (((readScopeEntries o e.world).filter fun p =>
             regexpKeyMatch pat p.1).map entryLine))))) := by
  unfold git.config.get
  simp only []
  rw [git_exec_eval]
  have hflat : flattenDeepL [Arg.str "config",
      Arg.arr ((getFlags (((some o).getD {} : Options))).map Arg.str), Arg.str pat] =
      getCmd o pat := by
    simp [flattenDeepL, flattenDeepA, flattenDeepL_map_str, getCmd]
  rw [hflat, runGit_getRegexp o pat e.world hk hall hregex]
  by_cases hv :
      ((readScopeEntries o e.world).filter fun p => regexpKeyMatch pat p.1).isEmpty <;>
    simp [hv, hall, hregex]

/-! ## Characterizing the regexp-mode mapping fold -/

theorem contains_eq_decide_mem (l : List String) (x : String) :
    l.contains x = decide (x ∈ l) := by
  induction l with
  | nil => simp
  | cons b r ih =>
    rw [contains_cons, ih]
    by_cases h : x = b <;> simp [h]

theorem findVals_pushBinding (m : List (String × List (Option String)))
    (k k' : String) (v : Option String) :
    findVals (pushBinding m k v) k' =
      if k' = k then some ((findVals m k).getD [] ++ [v]) else findVals m k' := by
  induction m with
  | nil =>
    by_cases h : k' = k
    · subst h; simp [pushBinding, findVals]
    · have : ¬(k = k') := fun hh => h hh.symm
      simp [pushBinding, findVals, h, this]
  | cons p rest ih =>
    obtain ⟨k0, vs0⟩ := p
    by_cases h0 : k0 = k
    · subst h0
      by_cases h : k' = k0
      · subst h; simp [pushBinding, findVals]
      · have : ¬(k0 = k') := fun hh => h hh.symm
        simp [pushBinding, findVals, h, this]
    · have hbk : (k0 == k) = false := by simpa using h0
      by_cases h : k' = k0
      · have hkk : ¬(k' = k) := fun hh => h0 (h.symm.trans hh)
        have hb : (k0 == k') = true := by simp [h]
        simp [pushBinding, findVals, hbk, hb, hkk]
      · have hb : (k0 == k') = false := by
          simpa using fun hh => h hh.symm
        simp [pushBinding, findVals, hbk, hb, ih]

theorem findVals_parse (lines : List String)
    (m : List (String × List (Option String))) (k : String) :
    findVals (lines.foldl addLine m) k =
      match findVals m k with
      | some vs =>
        some (vs ++ ((lines.map splitFirstSpace).filter fun q =>
          q.1 == k).map fun q => q.2)
      | none =>
        if ((lines.map splitFirstSpace).filter fun q => q.1 == k).isEmpty then none
        else some (((lines.map splitFirstSpace).filter fun q => q.1 == k).map fun q => q.2) := by
  induction lines generalizing m with
  | nil => cases h : findVals m k <;> simp [h]
  | cons line rest ih =>
    simp only [List.foldl_cons, List.map_cons]
    rw [show addLine m line =
      pushBinding m (splitFirstSpace line).1 (splitFirstSpace line).2 from rfl] at *
    rw [ih]
    rw [findVals_pushBinding]
    by_cases hl : (splitFirstSpace line).1 = k
    · have hl' : k = (splitFirstSpace line).1 := hl.symm
      rw [if_pos hl']
      cases h : findVals m k <;>
        simp [h, hl, List.filter_cons, List.append_assoc]
    · have hl' : ¬(k = (splitFirstSpace line).1) := fun hh => hl hh.symm
      rw [if_neg hl']
      have hfe : ((splitFirstSpace line).1 == k) = false := by
        simpa using hl
      cases h : findVals m k <;> simp [h, List.filter_cons, hfe]

theorem findVals_isSome_contains (m : List (String × List (Option String)))
    (k : String) :
    (findVals m k).isSome = (m.map Prod.fst).contains k := by
  induction m with
  | nil => simp [findVals]
  | cons p rest ih =>
    obtain ⟨k0, vs0⟩ := p
    by_cases h : k0 = k
    · subst h; simp [findVals, contains_cons]
    · have h2 : ¬(k = k0) := fun hh => h hh.symm
      simp [findVals, contains_cons, h, h2, ih]

theorem dedupFirstAux_congr (xs : List String) (s1 s2 : List String)
    (h : ∀ x, s1.contains x = s2.contains x) :
    dedupFirstAux s1 xs = dedupFirstAux s2 xs := by
  induction xs generalizing s1 s2 with
  | nil => rfl
  | cons x r ih =>
    simp only [dedupFirstAux, h x]
    by_cases hx : s2.contains x = true
    · rw [if_pos hx, if_pos hx]
      exact ih s1 s2 h
    · rw [if_neg hx, if_neg hx]
      refine congrArg _ (ih _ _ ?_)
      intro y
      rw [contains_cons, contains_cons, h y]

theorem keys_pushBinding (m : List (String × List (Option String)))
    (k : String) (v : Option String) :
    (pushBinding m k v).map Prod.fst =
      if (findVals m k).isSome then m.map Prod.fst else m.map Prod.fst ++ [k] := by
  induction m with
  | nil => simp [pushBinding, findVals]
  | cons p rest ih =>
    obtain ⟨k0, vs0⟩ := p
    by_cases h : k0 = k
    · subst h; simp [pushBinding, findVals]
    · have h2 : ¬(k = k0) := fun hh => h hh.symm
      by_cases hs : (findVals rest k).isSome <;>
        simp [pushBinding, findVals, h, h2, ih, hs]

theorem keys_parse (lines : List String)
    (m : List (String × List (Option String))) :
    (lines.foldl addLine m).map Prod.fst =
      m.map Prod.fst ++
        dedupFirstAux (m.map Prod.fst) (lines.map fun l => (splitFirstSpace l).1) := by
  induction lines generalizing m with
  | nil => simp [dedupFirstAux]
  | cons line rest ih =>
    simp only [List.foldl_cons, List.map_cons, dedupFirstAux]
    rw [show addLine m line =
      pushBinding m (splitFirstSpace line).1 (splitFirstSpace line).2 from rfl]
    rw [ih, keys_pushBinding]
    by_cases hs : (findVals m (splitFirstSpace line).1).isSome = true
    · have hc : (m.map Prod.fst).contains (splitFirstSpace line).1 = true := by
        rw [← findVals_isSome_contains]; exact hs
      rw [if_pos hs, if_pos hc]
    · have hc : (m.map Prod.fst).contains (splitFirstSpace line).1 = false := by
        rw [← findVals_isSome_contains]; simpa using hs
      rw [if_neg hs, if_neg (by rw [hc]; simp)]
      rw [List.append_assoc]
      simp only [List.singleton_append]
      refine congrArg _ (congrArg _ ?_)
      refine dedupFirstAux_congr _ _ _ ?_
      intro y
      rw [contains_cons, contains_eq_decide_mem, contains_eq_decide_mem]
      by_cases h1 : y ∈ List.map Prod.fst m <;>
        by_cases h2 : y = (splitFirstSpace line).1 <;>
        simp [h1, h2]

theorem unsetLoop_eval (o : Options) (key : String) (vs : List String) (e : Eff)
    (hk : plainKey key = true) (hnd : vs.Nodup)
    (hmem : ∀ v ∈ vs, (key, v) ∈ writeScopeEntries o e.world) :
    git.config.unsetLoop (scopeFlags o) key vs e =
      ({ world := updW o e.world fun f =>
           f.filter fun p => !(p.1 == key && vs.contains p.2),
         trace := e.trace ++ vs.map (unsetOneCmd o key) }, Except.ok ()) := by
  induction vs generalizing e with
  | nil =>
    simp only [git.config.unsetLoop, List.map_nil, List.append_nil]
    have hfid : ∀ f : List Entry,
        (f.filter fun p => !(p.1 == key && ([] : List String).contains p.2)) = f := by
      intro f
      apply List.filter_eq_self.2
      intro p _
      simp
    have h2 : (updW o e.world fun f =>
        f.filter fun p => !(p.1 == key && ([] : List String).contains p.2)) = e.world := by
      by_cases hg : o.global <;> simp [updW, hg, hfid]
    rw [h2]
  | cons v rest ih =>
    unfold git.config.unsetLoop
    rw [git_exec_eval]
    have hflat : flattenDeepL [Arg.str "config", Arg.str "--unset",
        Arg.arr ((scopeFlags o).map Arg.str), Arg.str key,
        Arg.str ("^" ++ v ++ "$")] = unsetOneCmd o key v := by
      simp [flattenDeepL, flattenDeepA, flattenDeepL_map_str, unsetOneCmd,
        List.append_assoc]
    rw [hflat, runGit_unsetOne o key v e.world hk]
    have hv0 : (key, v) ∈ writeScopeEntries o e.world := hmem v (by simp)
    rw [if_pos hv0]
    have hvnr : v ∉ rest := (List.nodup_cons.1 hnd).1
    have hmem' : ∀ v2 ∈ rest,
        (key, v2) ∈ writeScopeEntries o
          (updW o e.world fun f => f.filter fun p => !(p.1 == key && p.2 == v)) := by
      intro v2 hv2
      rw [writeScopeEntries_updW]
      refine List.mem_filter.2 ⟨hmem v2 (by simp [hv2]), ?_⟩
      have : ¬(v2 = v) := fun hh => hvnr (hh ▸ hv2)
      simp [this]
    simp only []
    rw [ih _ (List.nodup_cons.1 hnd).2 hmem']
    refine congrArg (fun x => (x, Except.ok ())) ?_
    rw [updW_updW]
    have hff : ∀ f : List Entry,
        ((f.filter fun p => !(p.1 == key && p.2 == v)).filter fun p =>
          !(p.1 == key && rest.contains p.2)) =
        f.filter fun p => !(p.1 == key && (v :: rest).contains p.2) := by
      intro f
      rw [List.filter_filter]
      refine List.filter_congr ?_
      intro p _
      cases h1 : p.1 == key <;> cases h2 : p.2 == v <;>
        cases h3 : rest.contains p.2 <;>
        simp only [contains_cons, h1, h2, h3] <;> decide
    simp only [hff]
    simp [List.append_assoc]

/-! ## Claim theorems -/

/-- C10: the combined entry point git.config dispatches on its second
argument: with exactly two arguments whose second is neither a string nor an
array (an options object or undefined), the second argument is treated as
the options and the call reads through git.config.get; with a defined string
or array second argument it writes through git.config.set, and with no
options given that write uses the defaults, whose add field is false
(replace mode); with only a key it reads. -/
theorem config_dispatch_spec :
    (∀ key o e, git.config key (some (JsArg.obj o)) none e =
      ((git.config.get key (some o) e).1,
       ConfigResult.got (git.config.get key (some o) e).2)) ∧
    (∀ key e, git.config key (some JsArg.undef) none e =
      ((git.config.get key none e).1,
       ConfigResult.got (git.config.get key none e).2)) ∧
    (∀ key s e, git.config key (some (JsArg.str s)) none e =
      ((git.config.set key (JsArg.str s) none e).1,
       ConfigResult.setr (git.config.set key (JsArg.str s) none e).2)) ∧
    (∀ key l e, git.config key (some (JsArg.arr l)) none e =
      ((git.config.set key (JsArg.arr l) none e).1,
       ConfigResult.setr (git.config.set key (JsArg.arr l) none e).2)) ∧
    (∀ key e, git.config key none none e =
      ((git.config.get key none e).1,
       ConfigResult.got (git.config.get key none e).2)) ∧
    ({} : Options).add = false := by
  refine ⟨fun key o e => rfl, fun key e => rfl, fun key s e => rfl,
    fun key l e => rfl, fun key e => rfl, rfl⟩

/-- C8 amended: git.exec invokes git.run and, on a non-zero exit status,
fails with a GitError carrying the exit status, exec's FIRST argument group
(which coincides with the full invoked command only when the whole command
is passed as one group), and the captured stdout and stderr with trailing
whitespace (in particular the trailing newline) stripped; on a zero exit
status it returns the captured stdout with trailing whitespace stripped. -/
theorem git_exec_contract (args : List Arg) (e : Eff) :
    git.exec args e =
      ({ world := (runGit (flattenDeepL args) e.world).1,
         trace := e.trace ++ [flattenDeepL args] },
       if (runGit (flattenDeepL args) e.world).2.status = 0 then
         Except.ok (jsTrimRight (runGit (flattenDeepL args) e.world).2.stdout)
       else
         Except.error ⟨(runGit (flattenDeepL args) e.world).2.status, args.head?,
           jsTrimRight (runGit (flattenDeepL args) e.world).2.stdout,
           jsTrimRight (runGit (flattenDeepL args) e.world).2.stderr⟩) :=
  git_exec_eval args e

/-- C8 counterexample: the raised error does not carry the invoked command:
exec called with three argument groups on a failing invocation records only
its first argument ("config") in the command field, not the full flattened
command line that was invoked. -/
theorem git_exec_command_cx :
    (git.exec [Arg.str "config", Arg.arr [Arg.str "--unset-all"], Arg.str "no.key"]
      ⟨⟨[], []⟩, []⟩).2 =
      Except.error ⟨5, some (Arg.str "config"), "", ""⟩ ∧
    errCommandArgs (git.exec [Arg.str "config", Arg.arr [Arg.str "--unset-all"],
      Arg.str "no.key"] ⟨⟨[], []⟩, []⟩).2 = ["config"] ∧
    flattenDeepL [Arg.str "config", Arg.arr [Arg.str "--unset-all"], Arg.str "no.key"] =
      ["config", "--unset-all", "no.key"] ∧
    ["config"] ≠ ["config", "--unset-all", "no.key"] := by
  refine ⟨rfl, rfl, rfl, ?_⟩
  decide

/-- C9 amended: git.run (and through it git.exec and git.execSuccess)
flattens its nested argument groupings completely, at any depth, into one
flat ordered list before invoking the executable, and the flattening
preserves relative order (it is a homomorphism for concatenation); the
streaming operation git.show, however, flattens only ONE level of its
argument groupings. -/
theorem flatten_contract :
    (∀ args e, git.run args e =
      ({ world := (runGit (flattenDeepL args) e.world).1,
         trace := e.trace ++ [flattenDeepL args] },
       (runGit (flattenDeepL args) e.world).2)) ∧
    (∀ l1 l2 : List Arg, flattenDeepL (l1 ++ l2) = flattenDeepL l1 ++ flattenDeepL l2) ∧
    (∀ l, flattenDeepA (Arg.arr l) = flattenDeepL l) ∧
    (∀ s, flattenDeepA (Arg.str s) = [s]) ∧
    (∀ args e, (git.exec args e).1.trace = e.trace ++ [flattenDeepL args]) ∧
    (∀ args e, (git.execSuccess args e).1.trace = e.trace ++ [flattenDeepL args]) ∧
    (∀ l rest, git.showInvokedArgs (Arg.arr l :: rest) = flattenOne l) := by
  refine ⟨fun args e => rfl, flattenDeepL_append, fun l => rfl, fun s => rfl,
    ?_, fun args e => rfl, fun l rest => rfl⟩
  intro args e
  rw [git_exec_eval]

/-- C9 counterexample: the streaming operation does not flatten at every
depth: on a depth-three nesting it passes a still-nested group through,
while complete flattening would give four plain arguments. -/
theorem show_flatten_cx :
    flattenDeepL [Arg.arr [Arg.str "a",
      Arg.arr [Arg.str "b", Arg.arr [Arg.str "c", Arg.str "d"]]]] =
      ["a", "b", "c", "d"] ∧
    git.showInvokedArgs [Arg.arr [Arg.str "a",
      Arg.arr [Arg.str "b", Arg.arr [Arg.str "c", Arg.str "d"]]]] ≠
      (flattenDeepL [Arg.arr [Arg.str "a",
        Arg.arr [Arg.str "b", Arg.arr [Arg.str "c", Arg.str "d"]]]]).map Arg.str := by
  refine ⟨rfl, ?_⟩
  intro h
  have h3 : (git.showInvokedArgs [Arg.arr [Arg.str "a",
      Arg.arr [Arg.str "b", Arg.arr [Arg.str "c", Arg.str "d"]]]]).length = 3 := rfl
  rw [h] at h3
  have h4 : ((flattenDeepL [Arg.arr [Arg.str "a",
      Arg.arr [Arg.str "b", Arg.arr [Arg.str "c", Arg.str "d"]]]]).map Arg.str).length = 4 := rfl
  rw [h4] at h3
  exact absurd h3 (by decide)

/-- C2: git.config.get never propagates a failure of the underlying lookup:
whenever the issued store invocation exits non-zero (so git.exec raises a
GitError), get returns null in default single-value mode, the empty list in
all mode, and the empty mapping in regexp mode. The JavaScript source
returns the one empty collection for both of the latter modes; it is
rendered here in the result shape of the active mode. -/
theorem config_get_soft_miss (key : String) (opts : Option Options) (e : Eff)
    (h : (runGit (getCmd (opts.getD {}) key) e.world).2.status ≠ 0) :
    ((opts.getD {}).all = true →
      (git.config.get key opts e).2 = GetResult.list []) ∧
    ((opts.getD {}).all = false → (opts.getD {}).regex = true →
      (git.config.get key opts e).2 = GetResult.mapping []) ∧
    ((opts.getD {}).all = false → (opts.getD {}).regex = false →
      (git.config.get key opts e).2 = GetResult.nullv) := by
  unfold git.config.get
  simp only []
  rw [git_exec_eval]
  have hflat : flattenDeepL [Arg.str "config",
      Arg.arr ((getFlags (opts.getD {})).map Arg.str), Arg.str key] =
      getCmd (opts.getD {}) key := by
    simp [flattenDeepL, flattenDeepA, flattenDeepL_map_str, getCmd]
  rw [hflat, if_neg h]
  refine ⟨fun h1 => by simp [h1], fun h1 h2 => by simp [h1, h2],
    fun h1 h2 => by simp [h1, h2]⟩

/-- C2 witness: on the empty store a default-mode lookup of a key fails with
a non-zero status and get downgrades it to null. -/
theorem config_get_soft_miss_witness :
    (runGit (getCmd (Option.getD none {}) "a.b") (⟨⟨[], []⟩, []⟩ : Eff).world).2.status ≠ 0 ∧
    (git.config.get "a.b" none (⟨⟨[], []⟩, []⟩ : Eff)).2 = GetResult.nullv := by
  refine ⟨by decide, ?_⟩
  exact (config_get_soft_miss "a.b" none ⟨⟨[], []⟩, []⟩ (by decide)).2.2 rfl rfl

/-- C3 counterexample: with add and unique set, git.config.set does not
return the full requested value list: requesting ["x", "w"] while "x" is
already present returns only ["w"], the list filtered down to the values
that were actually written. -/
theorem config_set_unique_return_cx :
    (git.config.set "a.b" (JsArg.arr ["x", "w"])
      (some { add := true, unique := true }) ⟨⟨[], [("a.b", "x")]⟩, []⟩).2 =
      Except.ok ["w"] ∧
    (Except.ok ["w"] : Except GitError (List String)) ≠ Except.ok ["x", "w"] := by
  refine ⟨rfl, ?_⟩
  intro h
  rw [Except.ok.injEq] at h
  exact absurd h (by decide)

/-- C3 amended: git.config.set returns exactly the list of values it passed
to the per-value write step: the full normalized requested list when add is
false or unique is false, and, when add and unique are both set, the
requested values minus those already present per the all-mode lookup, in
requested order (lodash difference). -/
theorem config_set_return_spec (key : String) (values : JsArg)
    (opts : Option Options) (e : Eff) (hk : plainKey key = true) :
    (git.config.set key values opts e).2 =
      Except.ok (if (opts.getD {}).add && (opts.getD {}).unique then
        lodashDifference (castArray values)
          (getList (git.config.get key
            (some { opts.getD {} with all := true }) e).2)
      else castArray values) := by
  unfold git.config.set
  simp only []
  by_cases hadd : (opts.getD {}).add
  · by_cases huniq : (opts.getD {}).unique
    · simp only [hadd, huniq, Bool.not_true, Bool.false_eq_true, if_false, if_true,
        Bool.and_self]
      rw [setLoop_eval (opts.getD {}) key _ _ hk]
      simp [hadd, huniq, Except.map]
    · simp only [hadd, huniq, Bool.not_true, Bool.false_eq_true, if_false]
      rw [setLoop_eval (opts.getD {}) key _ _ hk]
      simp [hadd, huniq, Except.map]
  · simp only [Bool.not_eq_true] at hadd
    simp only [hadd, Bool.not_false, if_true]
    rw [setLoop_eval (opts.getD {}) key _ _ hk]
    simp [hadd, Except.map]

/-- C3 amended witness: a replace-mode write returns the full requested
list. -/
theorem config_set_return_spec_witness :
    plainKey "a.b" = true ∧
    (git.config.set "a.b" (JsArg.arr ["p", "q"]) none ⟨⟨[], []⟩, []⟩).2 =
      Except.ok ["p", "q"] := by
  refine ⟨by decide, ?_⟩
  exact (config_set_return_spec "a.b" (JsArg.arr ["p", "q"]) none ⟨⟨[], []⟩, []⟩
    (by decide)).trans rfl

/-- C1: a replace-mode write (add false, the default) first issues one
best-effort --unset-all invocation for the key in the targeted scope whose
failure is swallowed (the overall result is a success regardless of whether
anything was removed), then issues one separate --add invocation per
requested value, in the order given, and afterwards the targeted scope file
holds exactly the requested values for the key, in order. -/
theorem config_set_replace_spec (key : String) (values : List String)
    (opts : Option Options) (e : Eff)
    (hk : plainKey key = true) (hadd : (opts.getD {}).add = false) :
    (git.config.set key (JsArg.arr values) opts e).2 = Except.ok values ∧
    (git.config.set key (JsArg.arr values) opts e).1.trace =
      e.trace ++ unsetAllCmd (opts.getD {}) key ::
        values.map (addCmd (opts.getD {}) key) ∧
    valuesFor (writeScopeEntries (opts.getD {})
      (git.config.set key (JsArg.arr values) opts e).1.world) key = values := by
  have heval : git.config.set key (JsArg.arr values) opts e =
      ({ world := updW (opts.getD {}) e.world fun f =>
           (f.filter fun p => !(p.1 == key)) ++ values.map fun v => (key, v),
         trace := e.trace ++ unsetAllCmd (opts.getD {}) key ::
           values.map (addCmd (opts.getD {}) key) },
       Except.ok values) := by
    unfold git.config.set
    simp only [castArray, hadd, Bool.not_false, if_true]
    rw [config_unset_eval (opts.getD {}) key e hk]
    simp only []
    rw [setLoop_eval (opts.getD {}) key values _ hk]
    simp only [updW_updW]
    simp [Except.map, List.append_assoc]
  refine ⟨by rw [heval], by rw [heval], ?_⟩
  rw [heval]
  simp only []
  rw [writeScopeEntries_updW, valuesFor_appends, valuesFor_filter_out]
  rfl

/-- C1 witness: replacing the single pre-existing value of a key with two
new values succeeds, issues the clear invocation then one write per value,
and leaves exactly the two requested values in the local scope file. -/
theorem config_set_replace_spec_witness :
    plainKey "user.name" = true ∧
    (Option.getD none ({} : Options)).add = false ∧
    (git.config.set "user.name" (JsArg.arr ["a", "b"]) none
      ⟨⟨[], [("user.name", "old")]⟩, []⟩).2 = Except.ok ["a", "b"] ∧
    (git.config.set "user.name" (JsArg.arr ["a", "b"]) none
      ⟨⟨[], [("user.name", "old")]⟩, []⟩).1.trace =
      [["config", "--unset-all", "user.name"],
       ["config", "--add", "user.name", "a"],
       ["config", "--add", "user.name", "b"]] ∧
    valuesFor (writeScopeEntries (Option.getD none {})
      (git.config.set "user.name" (JsArg.arr ["a", "b"]) none
        ⟨⟨[], [("user.name", "old")]⟩, []⟩).1.world) "user.name" = ["a", "b"] := by
  obtain ⟨h1, h2, h3⟩ := config_set_replace_spec "user.name" ["a", "b"] none
    ⟨⟨[], [("user.name", "old")]⟩, []⟩ (by decide) rfl
  exact ⟨by decide, rfl, h1, h2.trans (by decide), h3⟩

/-- C4: when a regexp-mode read's underlying command succeeds with output
text out, get returns the mapping built by splitting out into lines, then
splitting each line at its FIRST space into a key and the rest of the line:
every key is bound to the ordered list of the rest-of-line values of its
lines (absent when the key never occurs), so keys appearing on several
lines accumulate several values in emission order, and the mapping lists
its keys in first-occurrence order. -/
theorem config_get_regexp_parse_spec (key : String) (opts : Option Options)
    (e : Eff) (out : String)
    (hregex : (opts.getD {}).regex = true) (hall : (opts.getD {}).all = false)
    (hok : (git.exec [Arg.str "config",
      Arg.arr ((getFlags (opts.getD {})).map Arg.str), Arg.str key] e).2 =
      Except.ok out) :
    (git.config.get key opts e).2 = GetResult.mapping (parseRegexpOutput out) ∧
    (∀ k, findVals (parseRegexpOutput out) k =
      (if (((jsSplitNl out).map splitFirstSpace).filter fun q => q.1 == k).isEmpty
       then none
       else some ((((jsSplitNl out).map splitFirstSpace).filter fun q =>
         q.1 == k).map fun q => q.2))) ∧
    (parseRegexpOutput out).map Prod.fst =
      dedupFirst ((jsSplitNl out).map fun l => (splitFirstSpace l).1) := by
  refine ⟨?_, ?_, ?_⟩
  · unfold git.config.get
    simp only []
    rw [hok]
    simp [hall, hregex]
  · intro k
    have := findVals_parse (jsSplitNl out) [] k
    simpa [findVals, parseRegexpOutput] using this
  · have := keys_parse (jsSplitNl out) []
    simpa [parseRegexpOutput, dedupFirst] using this

/-- C4 witness: over a store holding two values of one key and one of
another, the regexp read succeeds and the parsed mapping accumulates both
values of the repeated key, in emission order. -/
theorem config_get_regexp_parse_spec_witness :
    (Option.getD (some ({ regex := true } : Options)) {}).regex = true ∧
    (git.exec [Arg.str "config",
      Arg.arr ((getFlags (Option.getD (some ({ regex := true } : Options)) {})).map Arg.str),
      Arg.str "^k\\."] ⟨⟨[], [("k.a", "v1 v2"), ("k.a", "v3"), ("k.b", "")]⟩, []⟩).2 =
      Except.ok "k.a v1 v2\nk.a v3\nk.b" ∧
    (git.config.get "^k\\." (some { regex := true })
      ⟨⟨[], [("k.a", "v1 v2"), ("k.a", "v3"), ("k.b", "")]⟩, []⟩).2 =
      GetResult.mapping [("k.a", [some "v1 v2", some "v3"]), ("k.b", [none])] := by
  refine ⟨rfl, rfl, ?_⟩
  exact ((config_get_regexp_parse_spec "^k\\." (some { regex := true })
    ⟨⟨[], [("k.a", "v1 v2"), ("k.a", "v3"), ("k.b", "")]⟩, []⟩
    "k.a v1 v2\nk.a v3\nk.b" rfl rfl rfl).1).trans (by decide)

theorem dedupFirstAux_nodup (xs seen : List String) :
    (dedupFirstAux seen xs).Nodup ∧
      ∀ x ∈ dedupFirstAux seen xs, seen.contains x = false := by
  induction xs generalizing seen with
  | nil => exact ⟨List.nodup_nil, by simp [dedupFirstAux]⟩
  | cons x r ih =>
    by_cases hx : seen.contains x = true
    · simp only [dedupFirstAux, if_pos hx]
      exact ih seen
    · simp only [dedupFirstAux, if_neg hx]
      obtain ⟨hnd, hmem⟩ := ih (x :: seen)
      refine ⟨List.nodup_cons.2 ⟨?_, hnd⟩, ?_⟩
      · intro hxm
        have := hmem x hxm
        rw [contains_cons] at this
        simp at this
      · intro y hy
        rcases List.mem_cons.1 hy with rfl | hy2
        · simpa using hx
        · have := hmem y hy2
          rw [contains_cons] at this
          simp only [Bool.or_eq_false_iff] at this
          exact this.2

theorem lodashIntersection_nodup (xs ys : List String) :
    (lodashIntersection xs ys).Nodup :=
  List.Nodup.filter _ (dedupFirstAux_nodup xs []).1

theorem readScope_eq_writeScope (o : Options) (w : World)
    (hscope : o.global = true ∨ o.localScope = true) :
    readScopeEntries o w = writeScopeEntries o w := by
  by_cases hg : o.global
  · simp [readScopeEntries, writeScopeEntries, hg]
  · rcases hscope with h | h
    · exact absurd h hg
    · simp [readScopeEntries, writeScopeEntries, hg, h]

theorem valuesFor_filter_vals (f : List Entry) (key : String) (q : String → Bool) :
    valuesFor (f.filter fun p => !(p.1 == key && q p.2)) key =
      (valuesFor f key).filter fun v => !(q v) := by
  induction f with
  | nil => rfl
  | cons p r ih =>
    by_cases h1 : p.1 = key
    · by_cases h2 : q p.2 = true
      · simpa [valuesFor, List.filter_cons, h1, h2] using ih
      · have h2f : q p.2 = false := by simpa using h2
        simpa [valuesFor, List.filter_cons, h1, h2f] using ih
    · simpa [valuesFor, List.filter_cons, h1] using ih

/-- C5 counterexample: unsetMatching can raise instead of removing the
intersection and returning it. With the default scope the intersection is
computed against the merged read view while the removal targets the local
file, so a value present only in the global file makes the removal
invocation fail; and a stored value containing a newline is split by the
all-mode read, so the anchored removal of a fragment matches nothing and
fails, even under an explicit scope. -/
theorem unsetMatching_cx :
    isErr (git.config.unsetMatching "a.b" (JsArg.arr ["g"]) none
      ⟨⟨[("a.b", "g")], []⟩, []⟩).2 = true ∧
    isErr (git.config.unsetMatching "a.b" (JsArg.arr ["u"])
      (some { localScope := true }) ⟨⟨[], [("a.b", "u\nv")]⟩, []⟩).2 = true :=
  ⟨rfl, rfl⟩

/-- C5 amended: under an explicit scope (global or local), and for a key
whose stored values in that scope survive the text protocol (nonempty,
newline-free, not whitespace-terminated), unsetMatching computes the
intersection of the requested values with the key's current full value list
(lodash intersection: unique, ordered by the request), removes exactly the
entries of the key whose value lies in that intersection — each removal
issued with the value anchored as the exact-match pattern caret-value-dollar
— leaves every other entry untouched, and returns the intersection. With
the default scope the read and the removal can target different files and
the removal step can instead raise (see the counterexample). -/
theorem unsetMatching_spec (key : String) (values : List String)
    (opts : Option Options) (e : Eff)
    (hk : plainKey key = true)
    (hscope : (opts.getD {}).global = true ∨ (opts.getD {}).localScope = true)
    (hclean : ∀ v ∈ valuesFor (writeScopeEntries (opts.getD {}) e.world) key,
      cleanVal v = true) :
    (git.config.unsetMatching key (JsArg.arr values) opts e).2 =
      Except.ok (lodashIntersection values
        (valuesFor (writeScopeEntries (opts.getD {}) e.world) key)) ∧
    writeScopeEntries (opts.getD {})
        (git.config.unsetMatching key (JsArg.arr values) opts e).1.world =
      ((writeScopeEntries (opts.getD {}) e.world).filter fun p =>
        !(p.1 == key && (lodashIntersection values
          (valuesFor (writeScopeEntries (opts.getD {}) e.world) key)).contains p.2)) ∧
    valuesFor (writeScopeEntries (opts.getD {})
        (git.config.unsetMatching key (JsArg.arr values) opts e).1.world) key =
      ((valuesFor (writeScopeEntries (opts.getD {}) e.world) key).filter fun v =>
        !((lodashIntersection values
          (valuesFor (writeScopeEntries (opts.getD {}) e.world) key)).contains v)) ∧
    (git.config.unsetMatching key (JsArg.arr values) opts e).1.trace =
      e.trace ++ getCmd { opts.getD {} with all := true } key ::
        (lodashIntersection values
          (valuesFor (writeScopeEntries (opts.getD {}) e.world) key)).map
          (unsetOneCmd (opts.getD {}) key) := by
  have h1 : readScopeEntries ({ opts.getD {} with all := true }) e.world =
      writeScopeEntries (opts.getD {}) e.world := by
    have h0 : readScopeEntries ({ opts.getD {} with all := true }) e.world =
        readScopeEntries (opts.getD {}) e.world := rfl
    rw [h0]
    exact readScope_eq_writeScope _ _ hscope
  have hgetAll := config_getAll_eval ({ opts.getD {} with all := true }) key e hk rfl
    (h1 ▸ hclean)
  have heval : git.config.unsetMatching key (JsArg.arr values) opts e =
      ({ world := updW (opts.getD {}) e.world fun f =>
           f.filter fun p => !(p.1 == key && (lodashIntersection values
             (valuesFor (writeScopeEntries (opts.getD {}) e.world) key)).contains p.2),
         trace := e.trace ++ getCmd { opts.getD {} with all := true } key ::
           (lodashIntersection values
             (valuesFor (writeScopeEntries (opts.getD {}) e.world) key)).map
             (unsetOneCmd (opts.getD {}) key) },
       Except.ok (lodashIntersection values
         (valuesFor (writeScopeEntries (opts.getD {}) e.world) key))) := by
    unfold git.config.unsetMatching
    simp only [castArray]
    rw [hgetAll]
    simp only [getList, h1]
    rw [unsetLoop_eval (opts.getD {}) key _ _ hk
      (lodashIntersection_nodup values _) ?hmem]
    case hmem =>
      intro v hv
      show (key, v) ∈ writeScopeEntries (opts.getD {}) e.world
      have hvc : (valuesFor (writeScopeEntries (opts.getD {}) e.world) key).contains v
          = true := (List.mem_filter.1 hv).2
      rw [contains_eq_decide_mem] at hvc
      exact (mem_valuesFor _ _ _).1 (by simpa using hvc)
    simp [Except.map, List.append_assoc]
  refine ⟨by rw [heval], ?_, ?_, by rw [heval]⟩
  · rw [heval]
    simp only []
    rw [writeScopeEntries_updW]
  · rw [heval]
    simp only []
    rw [writeScopeEntries_updW, valuesFor_filter_vals]

/-- C5 amended witness: under an explicit local scope, requesting
["y", "q", "y"] against stored values ["x", "y"] removes exactly the one
matching entry and returns the intersection ["y"]. -/
theorem unsetMatching_spec_witness :
    plainKey "a.b" = true ∧
    (git.config.unsetMatching "a.b" (JsArg.arr ["y", "q", "y"])
      (some { localScope := true })
      ⟨⟨[], [("a.b", "x"), ("a.b", "y"), ("a.c", "z")]⟩, []⟩).2 = Except.ok ["y"] ∧
    valuesFor (writeScopeEntries (Option.getD (some { localScope := true }) {})
      (git.config.unsetMatching "a.b" (JsArg.arr ["y", "q", "y"])
        (some { localScope := true })
        ⟨⟨[], [("a.b", "x"), ("a.b", "y"), ("a.c", "z")]⟩, []⟩).1.world) "a.b" =
      ["x"] := by
  obtain ⟨r1, _r2, r3, _r4⟩ := unsetMatching_spec "a.b" ["y", "q", "y"]
    (some { localScope := true })
    ⟨⟨[], [("a.b", "x"), ("a.b", "y"), ("a.c", "z")]⟩, []⟩
    (by decide) (Or.inr rfl) (by decide)
  exact ⟨by decide, r1.trans rfl, r3.trans (by decide)⟩

theorem set_unique_once_eval (key : String) (values : List String) (e : Eff)
    (hk : plainKey key = true)
    (hcur : ∀ v ∈ valuesFor (e.world.globalFile ++ e.world.localFile) key,
      cleanVal v = true) :
    git.config.set key (JsArg.arr values) (some { add := true, unique := true }) e =
      ({ world := updW ({ add := true, unique := true } : Options) e.world fun f =>
           f ++ (values.filter fun v =>
             !((valuesFor (e.world.globalFile ++ e.world.localFile) key).contains v)).map
             fun v => (key, v),
         trace := e.trace ++
           getCmd ({ all := true, add := true, unique := true } : Options) key ::
           (values.filter fun v =>
             !((valuesFor (e.world.globalFile ++ e.world.localFile) key).contains v)).map
             (addCmd ({ add := true, unique := true } : Options) key) },
       Except.ok (values.filter fun v =>
         !((valuesFor (e.world.globalFile ++ e.world.localFile) key).contains v))) := by
  unfold git.config.set
  simp only [castArray, Option.getD]
  rw [config_getAll_eval ({ all := true, add := true, unique := true} : Options) key e hk
    rfl hcur]
  have hrd : valuesFor (readScopeEntries
      ({ all := true, add := true, unique := true} : Options) e.world) key =
      valuesFor (e.world.globalFile ++ e.world.localFile) key := rfl
  simp only [getList, hrd, lodashDifference]
  rw [setLoop_eval ({ add := true, unique := true } : Options) key
    (values.filter fun v =>
      !((valuesFor (e.world.globalFile ++ e.world.localFile) key).contains v))
    ({ world := e.world,
       trace := e.trace ++
         [getCmd ({ all := true, add := true, unique := true } : Options) key] }) hk]
  simp [Except.map]

theorem valuesFor_map_self (key : String) (vs : List String) :
    valuesFor (vs.map fun v => (key, v)) key = vs := by
  simpa using valuesFor_appends [] key vs

/-- C6 amended: for a request without duplicate entries whose values, and
the key's pre-existing values, survive the text protocol (nonempty,
newline-free, not whitespace-terminated), set with add and unique is
idempotent: the second application writes nothing and leaves the store
unchanged; the first application appends exactly the requested values not
already present, so afterwards the all-mode read returns the pre-existing
values followed by each such value exactly once, and each requested value
occurs exactly once unless it pre-existed, in which case its multiplicity
is unchanged. A request with duplicate entries is appended with its
duplicates, and a value containing a newline defeats idempotence entirely
(see the counterexample). -/
theorem set_unique_idem_spec (key : String) (values : List String) (e : Eff)
    (hk : plainKey key = true) (hnd : values.Nodup)
    (hcv : ∀ v ∈ values, cleanVal v = true)
    (hcur : ∀ v ∈ valuesFor (e.world.globalFile ++ e.world.localFile) key,
      cleanVal v = true) :
    (git.config.set key (JsArg.arr values) (some { add := true, unique := true }) e).2 =
      Except.ok (values.filter fun v =>
        !((valuesFor (e.world.globalFile ++ e.world.localFile) key).contains v)) ∧
    (git.config.set key (JsArg.arr values) (some { add := true, unique := true })
      (git.config.set key (JsArg.arr values)
        (some { add := true, unique := true }) e).1).2 = Except.ok [] ∧
    (git.config.set key (JsArg.arr values) (some { add := true, unique := true })
      (git.config.set key (JsArg.arr values)
        (some { add := true, unique := true }) e).1).1.world =
      (git.config.set key (JsArg.arr values)
        (some { add := true, unique := true }) e).1.world ∧
    (git.config.get key (some { all := true })
      (git.config.set key (JsArg.arr values)
        (some { add := true, unique := true }) e).1).2 =
      GetResult.list (valuesFor (e.world.globalFile ++ e.world.localFile) key ++
        values.filter fun v =>
          !((valuesFor (e.world.globalFile ++ e.world.localFile) key).contains v)) ∧
    (∀ v ∈ values,
      (valuesFor (e.world.globalFile ++ e.world.localFile) key ++
        values.filter fun v2 =>
          !((valuesFor (e.world.globalFile ++ e.world.localFile) key).contains v2)).count v =
      if (valuesFor (e.world.globalFile ++ e.world.localFile) key).contains v then
        (valuesFor (e.world.globalFile ++ e.world.localFile) key).count v else 1) := by
  have heval1 := set_unique_once_eval key values e hk hcur
  have hmerged1 :
      valuesFor ((git.config.set key (JsArg.arr values)
          (some { add := true, unique := true }) e).1.world.globalFile ++
        (git.config.set key (JsArg.arr values)
          (some { add := true, unique := true }) e).1.world.localFile) key =
      valuesFor (e.world.globalFile ++ e.world.localFile) key ++
        values.filter fun v =>
          !((valuesFor (e.world.globalFile ++ e.world.localFile) key).contains v) := by
    rw [heval1]
    simp [updW, valuesFor_append, valuesFor_map_self, List.append_assoc]
  have hclean1 : ∀ v ∈ valuesFor ((git.config.set key (JsArg.arr values)
      (some { add := true, unique := true }) e).1.world.globalFile ++
        (git.config.set key (JsArg.arr values)
          (some { add := true, unique := true }) e).1.world.localFile) key,
      cleanVal v = true := by
    rw [hmerged1]
    intro v hv
    rcases List.mem_append.1 hv with h | h
    · exact hcur v h
    · exact hcv v (List.mem_filter.1 h).1
  have hall1 : ∀ v ∈ values,
      (valuesFor ((git.config.set key (JsArg.arr values)
          (some { add := true, unique := true }) e).1.world.globalFile ++
        (git.config.set key (JsArg.arr values)
          (some { add := true, unique := true }) e).1.world.localFile) key).contains v
        = true := by
    intro v hv
    rw [hmerged1, contains_eq_decide_mem]
    by_cases hc : (valuesFor (e.world.globalFile ++ e.world.localFile) key).contains v
    · rw [contains_eq_decide_mem] at hc
      simp only [decide_eq_true_eq] at hc
      simp [List.mem_append, hc]
    · have hcf : ((valuesFor (e.world.globalFile ++ e.world.localFile) key).contains v)
          = false := by simpa using hc
      refine decide_eq_true ?_
      refine List.mem_append.2 (Or.inr ?_)
      exact List.mem_filter.2 ⟨hv, by rw [hcf]; rfl⟩
  have heval2 := set_unique_once_eval key values
    (git.config.set key (JsArg.arr values) (some { add := true, unique := true }) e).1
    hk hclean1
  have hnil2 : (values.filter fun v =>
      !((valuesFor ((git.config.set key (JsArg.arr values)
          (some { add := true, unique := true }) e).1.world.globalFile ++
        (git.config.set key (JsArg.arr values)
          (some { add := true, unique := true }) e).1.world.localFile) key).contains v))
      = [] := by
    rw [List.filter_eq_nil_iff]
    intro v hv
    have h := hall1 v hv
    simp only [h, Bool.not_true]
    exact fun hfalse => absurd hfalse (by decide)
  refine ⟨by rw [heval1], ?_, ?_, ?_, ?_⟩
  · rw [heval2, hnil2]
  · rw [heval2, hnil2]
    simp only []
    by_cases hg : (({ add := true, unique := true } : Options)).global = true <;>
      simp [updW, hg]
  · have hget := config_getAll_eval ({ all := true } : Options) key
      (git.config.set key (JsArg.arr values) (some { add := true, unique := true }) e).1
      hk rfl hclean1
    rw [hget]
    simp only []
    have : valuesFor (readScopeEntries ({ all := true } : Options)
        (git.config.set key (JsArg.arr values)
          (some { add := true, unique := true }) e).1.world) key =
        valuesFor ((git.config.set key (JsArg.arr values)
          (some { add := true, unique := true }) e).1.world.globalFile ++
        (git.config.set key (JsArg.arr values)
          (some { add := true, unique := true }) e).1.world.localFile) key := rfl
    rw [this, hmerged1]
  · intro v hv
    rw [List.count_append]
    by_cases hc : (valuesFor (e.world.globalFile ++ e.world.localFile) key).contains v = true
    · have hvnot : v ∉ values.filter fun v2 =>
          !((valuesFor (e.world.globalFile ++ e.world.localFile) key).contains v2) := by
        intro hmem
        have := (List.mem_filter.1 hmem).2
        rw [hc] at this
        exact absurd this (by decide)
      rw [List.count_eq_zero.2 hvnot, Nat.add_zero, hc, if_pos rfl]
    · have hcf : ((valuesFor (e.world.globalFile ++ e.world.localFile) key).contains v)
          = false := by simpa using hc
      have hcm : v ∉ valuesFor (e.world.globalFile ++ e.world.localFile) key := by
        rw [contains_eq_decide_mem] at hcf
        simpa using hcf
      rw [List.count_eq_zero.2 hcm]
      have hvin : v ∈ values.filter fun v2 =>
          !((valuesFor (e.world.globalFile ++ e.world.localFile) key).contains v2) :=
        List.mem_filter.2 ⟨hv, by rw [hcf]; rfl⟩
      rw [List.count_eq_one_of_mem (hnd.filter _) hvin, hcf, if_neg (by decide)]

/-- C6 amended witness: on an empty store, appending ["w", "z"] with add and
unique twice adds the two values once; the second application writes
nothing, leaves the store unchanged, and the all-mode read returns each
value exactly once. -/
theorem set_unique_idem_spec_witness :
    plainKey "a.b" = true ∧
    (["w", "z"] : List String).Nodup ∧
    (git.config.set "a.b" (JsArg.arr ["w", "z"]) (some { add := true, unique := true })
      ⟨⟨[], []⟩, []⟩).2 = Except.ok ["w", "z"] ∧
    (git.config.set "a.b" (JsArg.arr ["w", "z"]) (some { add := true, unique := true })
      (git.config.set "a.b" (JsArg.arr ["w", "z"])
        (some { add := true, unique := true }) ⟨⟨[], []⟩, []⟩).1).2 = Except.ok [] ∧
    (git.config.get "a.b" (some { all := true })
      (git.config.set "a.b" (JsArg.arr ["w", "z"])
        (some { add := true, unique := true }) ⟨⟨[], []⟩, []⟩).1).2 =
      GetResult.list ["w", "z"] := by
  obtain ⟨r1, r2, _r3, r4, _r5⟩ := set_unique_idem_spec "a.b" ["w", "z"] ⟨⟨[], []⟩, []⟩
    (by decide) (by decide) (by decide) (by decide)
  exact ⟨by decide, by decide, r1.trans rfl, r2, r4.trans (by decide)⟩

/-- C6 counterexample: the claimed idempotence and exactly-once guarantee
fail as stated. A request with duplicate entries is appended twice, so the
all-mode read afterwards holds the element of V twice rather than once; and
a value containing a newline is re-added by the second application, which
therefore does add values. -/
theorem set_unique_idem_cx :
    (git.config.get "a.b" (some { all := true })
      (git.config.set "a.b" (JsArg.arr ["w", "w"])
        (some { add := true, unique := true })
        (git.config.set "a.b" (JsArg.arr ["w", "w"])
          (some { add := true, unique := true }) ⟨⟨[], []⟩, []⟩).1).1).2 =
      GetResult.list ["w", "w"] ∧
    (git.config.set "a.b" (JsArg.arr ["u\nv"]) (some { add := true, unique := true })
      (git.config.set "a.b" (JsArg.arr ["u\nv"])
        (some { add := true, unique := true }) ⟨⟨[], []⟩, []⟩).1).2 =
      Except.ok ["u\nv"] ∧
    (Except.ok ["u\nv"] : Except GitError (List String)) ≠ Except.ok [] := by
  refine ⟨rfl, rfl, ?_⟩
  intro h
  rw [Except.ok.injEq] at h
  exact absurd h (by decide)

/-! ## The text protocol on regexp-output lines -/

theorem takeWhile_append_cons {α : Type} (p : α → Bool) (l1 l2 : List α) (a : α)
    (h1 : ∀ x ∈ l1, p x = true) (h2 : p a = false) :
    (l1 ++ a :: l2).takeWhile p = l1 := by
  induction l1 with
  | nil => simp [List.takeWhile, h2]
  | cons x r ih =>
    rw [List.cons_append, List.takeWhile_cons, h1 x (by simp)]
    rw [ih (fun y hy => h1 y (by simp [hy]))]
    simp

theorem takeWhile_all_eq_self {α : Type} (p : α → Bool) (l : List α)
    (h : ∀ x ∈ l, p x = true) : l.takeWhile p = l := by
  induction l with
  | nil => rfl
  | cons x r ih =>
    rw [List.takeWhile_cons, h x (by simp)]
    simp [ih fun y hy => h y (by simp [hy])]

theorem char_ne_nl_of_not_ws (c : Char) (h : c.isWhitespace = false) :
    (c != '\n') = true := by
  by_cases hc : c = '\n'
  · rw [hc] at h; exact absurd h (by decide)
  · simpa using hc

theorem cleanKey_parts (k : String) (h : cleanKey k = true) :
    k.data ≠ [] ∧ ∀ c ∈ k.data, c.isWhitespace = false := by
  simp only [cleanKey, Bool.and_eq_true] at h
  obtain ⟨h1, h2⟩ := h
  refine ⟨by simpa using h1, ?_⟩
  intro c hc
  simpa using List.all_eq_true.1 h2 _ hc

theorem cleanVal_of_parts (s : String) (h1 : s.data ≠ [])
    (h2 : ∀ c ∈ s.data, (c != '\n') = true)
    (h3 : ∀ c, s.data.reverse.head? = some c → c.isWhitespace = false) :
    cleanVal s = true := by
  simp only [cleanVal, Bool.and_eq_true]
  refine ⟨⟨by simpa using h1, List.all_eq_true.2 h2⟩, ?_⟩
  cases hr : s.data.reverse with
  | nil => exact absurd (by simpa using hr) h1
  | cons c cs => simpa using h3 c (by rw [hr]; rfl)

theorem entryLine_clean (p : Entry) (hk : cleanKey p.1 = true)
    (hv : p.2 = "" ∨ cleanVal p.2 = true) :
    cleanVal (entryLine p) = true := by
  obtain ⟨k, v⟩ := p
  obtain ⟨hk1, hk2⟩ := cleanKey_parts k hk
  by_cases hve : v = ""
  · subst hve
    show cleanVal k = true
    refine cleanVal_of_parts k hk1
      (fun c hc => char_ne_nl_of_not_ws c (hk2 c hc)) ?_
    intro c hcc
    cases hr : k.data.reverse with
    | nil => rw [hr] at hcc; simp at hcc
    | cons c0 cs =>
      rw [hr] at hcc
      simp only [List.head?] at hcc
      have hc0 : c0 = c := by simpa using hcc
      have hm : c0 ∈ k.data := List.mem_reverse.1 (by rw [hr]; simp)
      exact hc0 ▸ hk2 c0 hm
  · have hcv : cleanVal v = true := hv.resolve_left hve
    obtain ⟨hv1, hv2, hv3⟩ := cleanVal_parts v hcv
    have hee : entryLine (k, v) = ⟨k.data ++ ' ' :: v.data⟩ := by
      unfold entryLine
      rw [if_neg (by simpa using hve)]
    rw [hee]
    refine cleanVal_of_parts _ (by simp) ?_ ?_
    · intro c hc
      rcases List.mem_append.1 hc with h | h
      · exact char_ne_nl_of_not_ws c (hk2 c h)
      · rcases List.mem_cons.1 h with rfl | h2
        · decide
        · have : c ≠ '\n' := fun hh => hv2 (hh ▸ h2)
          simpa using this
    · intro c hcc
      obtain ⟨c0, cs, hr⟩ : ∃ c0 cs, v.data.reverse = c0 :: cs := by
        cases hr : v.data.reverse with
        | nil => exact absurd (by simpa using hr) hv1
        | cons a b => exact ⟨a, b, rfl⟩
      rw [show ((⟨k.data ++ ' ' :: v.data⟩ : String)).data
        = k.data ++ ' ' :: v.data from rfl, List.reverse_append] at hcc
      have hrc : (' ' :: v.data).reverse = v.data.reverse ++ [' '] := by simp
      rw [hrc, hr] at hcc
      simp only [List.cons_append, List.head?] at hcc
      have hc0 : c0 = c := by simpa using hcc
      exact hc0 ▸ hv3 c0 (by rw [hr]; rfl)

theorem splitFirstSpace_nospace (s : String)
    (hs : ∀ c ∈ s.data, (c != ' ') = true) :
    splitFirstSpace s = (s, none) := by
  unfold splitFirstSpace
  have ht : s.data.takeWhile (fun c => c != ' ') = s.data :=
    takeWhile_all_eq_self _ _ hs
  simp [ht]

theorem splitFirstSpace_key_space (k v : String)
    (hs : ∀ c ∈ k.data, (c != ' ') = true) :
    splitFirstSpace ⟨k.data ++ ' ' :: v.data⟩ = (k, some v) := by
  unfold splitFirstSpace
  simp only [takeWhile_append_cons (fun c => c != ' ') k.data v.data ' ' hs (by decide)]
  have hlen : (k.data.length == ((⟨k.data ++ ' ' :: v.data⟩ : String)).data.length)
      = false := by
    show (k.data.length == (k.data ++ ' ' :: v.data).length) = false
    simp [List.length_append]
  rw [hlen]
  simp only [Bool.false_eq_true, if_false]
  refine Prod.ext ?_ ?_
  · show String.mk k.data = k
    rfl
  · show some (⟨(k.data ++ ' ' :: v.data).drop (k.data.length + 1)⟩ : String) = some v
    rw [show (k.data ++ ' ' :: v.data).drop (k.data.length + 1) = v.data by
      rw [show k.data.length + 1 = (k.data ++ [' ']).length by simp]
      rw [show k.data ++ ' ' :: v.data = (k.data ++ [' ']) ++ v.data by simp]
      rw [List.drop_left]]

theorem splitFirstSpace_entryLine (p : Entry) (hk : cleanKey p.1 = true) :
    (splitFirstSpace (entryLine p)).1 = p.1 := by
  obtain ⟨k, v⟩ := p
  obtain ⟨hk1, hk2⟩ := cleanKey_parts k hk
  have hksp : ∀ c ∈ k.data, (c != ' ') = true := by
    intro c hc
    have hw := hk2 c hc
    have : c ≠ ' ' := fun hh => by rw [hh] at hw; exact absurd hw (by decide)
    simpa using this
  by_cases hve : v = ""
  · subst hve
    show (splitFirstSpace k).1 = k
    rw [splitFirstSpace_nospace k hksp]
  · have hee : entryLine (k, v) = ⟨k.data ++ ' ' :: v.data⟩ := by
      unfold entryLine
      rw [if_neg (by simpa using hve)]
    rw [hee, splitFirstSpace_key_space k v hksp]

theorem entryKeys_map (ms : List Entry) (h : ∀ p ∈ ms, cleanKey p.1 = true) :
    (ms.map entryLine).map (fun l => (splitFirstSpace l).1) = ms.map Prod.fst := by
  rw [List.map_map]
  exact List.map_congr_left fun p hp => splitFirstSpace_entryLine p (h p hp)

/-- C7: subsections forces regexp mode onto its options and performs one
regexp-mode read with the anchored pattern made of a caret, the section name
and an escaped dot — matching exactly the keys that start with the section
name followed by a dot — then maps each distinct matched key, in store
order, to a subsection name by dropping the section-plus-dot prefix and the
trailing dot-plus-leaf suffix. Duplicate keys are collapsed by the object
accumulation of the regexp parse; duplicate subsection names arising from
distinct keys are kept. -/
theorem subsections_spec (sec : String) (opts : Option Options) (e : Eff)
    (hall : (opts.getD {}).all = false)
    (hclean : ∀ p ∈ readScopeEntries { opts.getD {} with regex := true } e.world,
      cleanKey p.1 = true ∧ (p.2 = "" ∨ cleanVal p.2 = true)) :
    git.config.subsections sec opts e =
      ({ world := e.world,
         trace := e.trace ++
           [getCmd { opts.getD {} with regex := true } ("^" ++ sec ++ "\\.")] },
       (dedupFirst
         (((readScopeEntries { opts.getD {} with regex := true } e.world).filter
             fun p => (sec.data ++ ['.']).isPrefixOf p.1.data).map Prod.fst)).map
         fun k => stripLastComponent (jsSubstrFrom k (sec.length + 1))) := by
  have hk : plainKey ("^" ++ sec ++ "\\.") = true := by
    rw [string_append_assoc]
    exact hat_plainKey (sec ++ "\\.")
  have hget := config_getRegexp_eval { opts.getD {} with regex := true }
    ("^" ++ sec ++ "\\.") e hk hall rfl
  unfold git.config.subsections
  simp only []
  rw [show git.config ("^" ++ sec ++ "\\.")
      (some (JsArg.obj { opts.getD {} with regex := true })) none e =
      ((git.config.get ("^" ++ sec ++ "\\.")
        (some { opts.getD {} with regex := true }) e).1,
       ConfigResult.got (git.config.get ("^" ++ sec ++ "\\.")
        (some { opts.getD {} with regex := true }) e).2) from rfl]
  rw [hget]
  simp only [regexpKeyMatch_hat]
  by_cases hv : (((readScopeEntries { opts.getD {} with regex := true } e.world).filter
      fun p => (sec.data ++ ['.']).isPrefixOf p.1.data)).isEmpty
  · have hnil : ((readScopeEntries { opts.getD {} with regex := true } e.world).filter
        fun p => (sec.data ++ ['.']).isPrefixOf p.1.data) = [] :=
      List.isEmpty_iff.1 hv
    rw [if_pos hv, hnil]
    simp [jsKeys, dedupFirst, dedupFirstAux]
  · rw [if_neg hv]
    have hne : ((readScopeEntries { opts.getD {} with regex := true } e.world).filter
        fun p => (sec.data ++ ['.']).isPrefixOf p.1.data) ≠ [] := by
      intro hh
      exact hv (by rw [hh]; rfl)
    have hmapne : (((readScopeEntries { opts.getD {} with regex := true } e.world).filter
        fun p => (sec.data ++ ['.']).isPrefixOf p.1.data).map entryLine) ≠ [] := by
      intro hh
      exact hne (List.map_eq_nil_iff.1 hh)
    have hcl : ∀ l ∈ (((readScopeEntries { opts.getD {} with regex := true } e.world).filter
        fun p => (sec.data ++ ['.']).isPrefixOf p.1.data).map entryLine),
        cleanVal l = true := by
      intro l hl
      obtain ⟨p, hp, rfl⟩ := List.mem_map.1 hl
      have hpin := (List.mem_filter.1 hp).1
      exact entryLine_clean p (hclean p hpin).1 (hclean p hpin).2
    have hdec := decode_linesOut _ hmapne hcl
    rw [show parseRegexpOutput (jsTrimRight (mkLinesOut
        (((readScopeEntries { opts.getD {} with regex := true } e.world).filter
          fun p => (sec.data ++ ['.']).isPrefixOf p.1.data).map entryLine))) =
      (jsSplitNl (jsTrimRight (mkLinesOut
        (((readScopeEntries { opts.getD {} with regex := true } e.world).filter
          fun p => (sec.data ++ ['.']).isPrefixOf p.1.data).map entryLine)))).foldl
        addLine [] from rfl]
    rw [hdec]
    simp only [jsKeys]
    rw [keys_parse]
    rw [entryKeys_map _ (fun p hp => (hclean p (List.mem_filter.1 hp).1).1)]
    simp [dedupFirst]

/-- C7 witness: over the keys remote.origin.url, remote.origin.fetch and
remote.upstream.url, subsections of "remote" yields the subsection names
["origin", "origin", "upstream"], whose distinct content is
["origin", "upstream"]. -/
theorem subsections_spec_witness :
    ((none : Option Options).getD {}).all = false ∧
    (∀ p ∈ readScopeEntries { (none : Option Options).getD {} with regex := true }
        (World.mk [] [("remote.origin.url", "u"), ("remote.origin.fetch", "f"),
          ("remote.upstream.url", "w")]),
      cleanKey p.1 = true ∧ (p.2 = "" ∨ cleanVal p.2 = true)) ∧
    (git.config.subsections "remote" none
      ⟨⟨[], [("remote.origin.url", "u"), ("remote.origin.fetch", "f"),
        ("remote.upstream.url", "w")]⟩, []⟩).2 = ["origin", "origin", "upstream"] ∧
    dedupFirst ["origin", "origin", "upstream"] = ["origin", "upstream"] := by
  refine ⟨by decide, by decide, ?_, by decide⟩
  have h := subsections_spec "remote" none
    ⟨⟨[], [("remote.origin.url", "u"), ("remote.origin.fetch", "f"),
      ("remote.upstream.url", "w")]⟩, []⟩ (by decide) (by decide)
  exact (congrArg Prod.snd h).trans (by decide)
